import Mathlib

/-!
# The Solitaire cipher of `solitaire.go`

A shallow embedding of the deck state machine, the key schedule and the
keystream application of `solitaire.go`, followed by theorems about them.

Modelling conventions.

* A Go `string` is modelled by the list of its characters (`GoString`); this
  covers every well-formed UTF-8 string. `len` is the UTF-8 byte length, as in
  Go, and the index of a `for i, c := range` loop advances by the byte width
  of the character.
* `card` is `int` in the source. Every card ever stored in a deck is one of
  `1..54`, and every position and count is a non-negative index, so cards,
  positions and counts are natural numbers here. The arithmetic of the
  keystream application, where a subtraction occurs, is done in `Int` with
  Go's truncating remainder (`Int.tmod`).
* A run-time panic (`card not found`, an index or a slice bound out of range)
  is the value `none` of an `Option`, or `Outcome.panicked`. A slice of a deck
  is bounded by the deck's length; for the 54-card decks of this program the
  capacity of `d.cards` equals its length.
* `output` is recursive without a bound in the source. Its model takes a
  recursion budget (`fuel`) and answers `Outcome.outOfFuel` when the budget is
  used up.
-/

namespace Solitaire

/-- A Go string, as the list of its characters. -/
abbrev GoString := List Char

/-- Go's `len` of a string: the number of bytes of its UTF-8 encoding. -/
def len (s : GoString) : Nat := (s.map Char.utf8Size).sum

/-- The type `card` of the source. -/
abbrev card := Nat

/-- The constant `jokerA`. -/
def jokerA : card := 53

/-- The constant `jokerB`. -/
def jokerB : card := 54

/-- Method `card.isJoker`. -/
def isJoker (c : card) : Bool := c == jokerA || c == jokerB

/-- Method `card.value`: both jokers are worth 53. -/
def value (c : card) : Nat := if isJoker c then jokerA else c

/-- The field `cards` of a `Deck`. -/
abbrev Deck := List card

/-- The type `InvalidCharacterError`, a string. -/
abbrev InvalidCharacterError := GoString

/-- The conversion `InvalidCharacterError(c)` of a character to that string. -/
def invalidCharacter (c : Char) : InvalidCharacterError := [c]

/-- The result of running code that may panic or recurse without bound. -/
inductive Outcome (α : Type) where
  | returned (a : α)
  | panicked
  | outOfFuel
  deriving DecidableEq, Repr

/-- The slice expression `cards[start:stop]`, for `start ≤ stop ≤ len(cards)`. -/
def slice (cards : List card) (start stop : Nat) : List card :=
  (cards.drop start).take (stop - start)

/-- The loop of `reorder`: the pairs of `pos` are taken two by two, a pair with
`start > end` is skipped, and a slice beyond the deck panics. -/
def reorderLoop (cards : List card) : List Nat → List card → Option (List card)
  | start :: stop :: rest, tmp =>
    if start ≤ stop then
      if stop ≤ cards.length then reorderLoop cards rest (tmp ++ slice cards start stop)
      else none
    else reorderLoop cards rest tmp
  | _, tmp => some tmp

/-- Method `Deck.reorder`. -/
def reorder (d : Deck) (pos : List Nat) : Option Deck := reorderLoop d pos []

/-- Method `Deck.find`: the first position of `target`, or a panic. -/
def find : Deck → card → Option Nat
  | [], _ => none
  | c :: cs, target => if c = target then some 0 else (find cs target).map (· + 1)

/-- Method `Deck.moveDown`. -/
def moveDown (d : Deck) (pos : Nat) : Nat → Option Deck
  | 0 => some d
  | off + 1 =>
    if pos + 1 = d.length then
      match reorder d [0, 1, 53, 54, 1, 53] with
      | some d1 => moveDown d1 1 off
      | none => none
    else
      match d[pos]?, d[pos + 1]? with
      | some x, some y => moveDown ((d.set pos y).set (pos + 1) x) (pos + 1) off
      | _, _ => none

/-- Method `Deck.moveJokers`. -/
def moveJokers (d : Deck) : Option Deck :=
  match find d jokerA with
  | none => none
  | some a =>
    match moveDown d a 1 with
    | none => none
    | some d1 =>
      match find d1 jokerB with
      | none => none
      | some b => moveDown d1 b 2

/-- Method `Deck.tripleCut`. -/
def tripleCut (d : Deck) : Option Deck :=
  match find d jokerA, find d jokerB with
  | some a, some b =>
    let lo := if a > b then b else a
    let hi := (if a > b then a else b) + 1
    reorder d [hi, 54, lo, hi, 0, lo]
  | _, _ => none

/-- Method `Deck.countCut`. -/
def countCut (d : Deck) (count : Nat) : Option Deck :=
  reorder d [count, 53, 0, count, 53, 54]

/-- Method `Deck.step`. -/
def step (d : Deck) : Option Deck :=
  match moveJokers d with
  | none => none
  | some d1 =>
    match tripleCut d1 with
    | none => none
    | some d2 =>
      match d2[53]? with
      | none => none
      | some bottom => countCut d2 (value bottom)

/-- Method `Deck.output`, with the deck it leaves behind. -/
def output : Nat → Deck → Outcome (Deck × Nat)
  | 0, _ => .outOfFuel
  | fuel + 1, d =>
    match step d with
    | none => .panicked
    | some d1 =>
      match d1[0]? with
      | none => .panicked
      | some count =>
        match d1[value count]? with
        | none => .panicked
        | some out => if isJoker out then output fuel d1 else .returned (d1, value out)

/-- The character of the string `string(r)`: the one with code point `r`,
U+FFFD when `r` is not a code point. -/
def runeChar (r : Int) : Char :=
  if 0 ≤ r ∧ r.toNat.isValidChar then Char.ofNat r.toNat else Char.ofNat 0xFFFD

/-- The conversion `string(r)` of an integer to a string of one character. -/
def runeString (r : Int) : GoString := [runeChar r]

/-- The loop of `addToKeystream` over the characters left, with the byte index
`i` and the string `keyed` built so far. The result is the deck left behind,
the returned string and the returned error. -/
def addToKeystreamLoop (fuel : Nat) (decrypt : Bool) :
    GoString → Deck → Nat → GoString → Outcome (Deck × GoString × Option InvalidCharacterError)
  | [], d, _, keyed => .returned (d, keyed, none)
  | c :: rest, d, i, keyed =>
    if c < 'A' ∨ c > 'Z' then .returned (d, [], some (invalidCharacter c))
    else
      let keyed1 := if i > 0 ∧ i % 5 = 0 then keyed ++ [' '] else keyed
      match output fuel d with
      | .panicked => .panicked
      | .outOfFuel => .outOfFuel
      | .returned (d1, out) =>
        let o : Int := if decrypt then 52 - (out : Int) else (out : Int)
        addToKeystreamLoop fuel decrypt rest d1 (i + c.utf8Size)
          (keyed1 ++ runeString (('A'.toNat : Int) + Int.tmod ((c.toNat : Int) - ('A'.toNat : Int) + o) 26))

/-- Method `Deck.addToKeystream`. -/
def addToKeystream (fuel : Nat) (d : Deck) (message : GoString) (decrypt : Bool) :
    Outcome (Deck × GoString × Option InvalidCharacterError) :=
  addToKeystreamLoop fuel decrypt message d 0 []

/-- Method `Deck.Encrypt`. -/
def Encrypt (fuel : Nat) (d : Deck) (plaintext : GoString) :
    Outcome (Deck × GoString × Option InvalidCharacterError) :=
  let plaintext :=
    if len plaintext % 5 ≠ 0 then plaintext ++ List.replicate (5 - len plaintext % 5) 'X'
    else plaintext
  addToKeystream fuel d plaintext false

/-- Method `Deck.Decrypt`. -/
def Decrypt (fuel : Nat) (d : Deck) (ciphertext : GoString) :
    Outcome (Deck × GoString × Option InvalidCharacterError) :=
  addToKeystream fuel d ciphertext true

/-- The loop of `NewDeck` over the characters of the passphrase left. The
result is the returned pair `(*Deck, error)`, with `none` for `nil`; the outer
`none` is a panic. -/
def newDeckLoop : GoString → Deck → Option (Option Deck × Option InvalidCharacterError)
  | [], d => some (some d, none)
  | c :: rest, d =>
    if c < 'A' ∨ c > 'Z' then some (none, some (invalidCharacter c))
    else
      match step d with
      | none => none
      | some d1 =>
        match countCut d1 (c.toNat + 1 - 'A'.toNat) with
        | none => none
        | some d2 => newDeckLoop rest d2

/-- The deck `NewDeck` starts from: `make([]card, 54)` filled with
`d.cards[i] = card(i + 1)`. -/
def freshDeck : Deck := (List.range 54).map (fun i => i + 1)

/-- Function `NewDeck`. -/
def NewDeck (passphrase : GoString) : Option (Option Deck × Option InvalidCharacterError) :=
  newDeckLoop passphrase freshDeck

/-! ## Notions used to state the properties -/

/-- A deck that holds each of the cards `1..54` exactly once: a rearrangement
of the list `[1, 2, ..., 54]`. -/
def IsDeck (d : Deck) : Prop := List.Perm d (List.range' 1 54)

instance (d : Deck) : Decidable (IsDeck d) := by
  unfold IsDeck; infer_instance

/-- The card `output` reads from a deck: the card at the index given by the
value of the top card, when both indices are in range. -/
def candidate (d : Deck) : Option card :=
  match d[0]? with
  | none => none
  | some count => d[value count]?

/-- The deck after `n` successive calls of `step`, `none` when one of them
panics. -/
def stepN : Nat → Deck → Option Deck
  | 0, d => some d
  | n + 1, d =>
    match step d with
    | none => none
    | some d1 => stepN n d1

/-- The first `n` values of the keystream: `n` successive calls of `output`,
with the deck they leave behind. -/
def keystream (fuel : Nat) : Nat → Deck → Outcome (Deck × List Nat)
  | 0, d => .returned (d, [])
  | n + 1, d =>
    match output fuel d with
    | .panicked => .panicked
    | .outOfFuel => .outOfFuel
    | .returned (d1, k) =>
      match keystream fuel n d1 with
      | .panicked => .panicked
      | .outOfFuel => .outOfFuel
      | .returned (d2, ks) => .returned (d2, k :: ks)

/-- A string all of whose characters are in `'A'..'Z'`. -/
def Upper (s : GoString) : Prop := ∀ c ∈ s, 'A' ≤ c ∧ c ≤ 'Z'

instance (s : GoString) : Decidable (Upper s) := by
  unfold Upper; infer_instance

/-- The character `addToKeystream` writes for the character `c` and the
keystream value `out`. -/
def keyedChar (decrypt : Bool) (c : Char) (out : Nat) : Char :=
  runeChar (('A'.toNat : Int) +
    Int.tmod ((c.toNat : Int) - ('A'.toNat : Int) +
      (if decrypt then 52 - (out : Int) else (out : Int))) 26)

/-- The characters `xs`, numbered from `i`, with a space before each one whose
number is a positive multiple of 5. -/
def spaced : Nat → List Char → GoString
  | _, [] => []
  | i, x :: xs => (if i > 0 ∧ i % 5 = 0 then [' ', x] else [x]) ++ spaced (i + 1) xs

/-- A string without its spaces (`strings.Replace(s, " ", "", -1)`). -/
def stripSpaces (s : GoString) : GoString := s.filter (fun c => c != ' ')

/-- The zero-based alphabet index of a character. -/
def alphaIndex (c : Char) : Int := (c.toNat : Int) - 65

/-- The letter with alphabet index `n` modulo 26 (non-negative modulus). -/
def letter (n : Int) : Char := Char.ofNat (65 + (n % 26).toNat)

/-- A string padded on the right with `'X'` to the next multiple of 5
characters. -/
def padX (s : GoString) : GoString := s ++ List.replicate ((5 - s.length % 5) % 5) 'X'

/-- The first character of a string that is not in `'A'..'Z'`, if any. -/
def firstInvalid (s : GoString) : Option Char :=
  s.find? (fun c => decide (¬ ('A' ≤ c ∧ c ≤ 'Z')))

/-- The string and the error a run returned, when it returned. -/
def returnedValues :
    Outcome (Deck × GoString × Option InvalidCharacterError) →
      Option (GoString × Option InvalidCharacterError)
  | .returned (_, s, e) => some (s, e)
  | _ => none

/-- The deck `NewDeck` returns for a passphrase, the empty deck when it returns
none. -/
def deckOf (passphrase : GoString) : Deck :=
  match NewDeck passphrase with
  | some (some d, _) => d
  | _ => []

/-- The deck of the empty passphrase after three calls of `output`. -/
def thirdDeck : Deck :=
  [5, 6, 7, 8, 9, 10, 11, 12, 13, 14, 15, 16, 17, 18, 19, 20, 21, 22, 23, 24, 25, 26, 27, 28,
    29, 30, 31, 32, 33, 34, 35, 36, 37, 38, 39, 40, 41, 42, 43, 44, 45, 46, 47, 48, 49, 50, 52,
    53, 2, 3, 54, 51, 4, 1]

/-- The deck `thirdDeck` after one `step`: its top card is 3 and the card at
index 3 is a joker. -/
def fourthDeck : Deck :=
  [3, 51, 4, 54, 5, 6, 7, 8, 9, 10, 11, 12, 13, 14, 15, 16, 17, 18, 19, 20, 21, 22, 23, 24, 25,
    26, 27, 28, 29, 30, 31, 32, 33, 34, 35, 36, 37, 38, 39, 40, 41, 42, 43, 44, 45, 46, 47, 48,
    49, 50, 52, 1, 53, 2]

/-- The value a call of `output` returned, when it returned. -/
def returnedKey : Outcome (Deck × Nat) → Option Nat
  | .returned (_, k) => some k
  | _ => none

/-- The call `find(t)` on the deck `d` returns `i`, and `i` is the one position
of the deck that holds `t`. -/
def FindsAt (d : Deck) (t : card) (i : Nat) : Prop :=
  find d t = some i ∧ i < 54 ∧ d[i]? = some t ∧ ∀ j, d[j]? = some t → j = i

/-- All the bounds passed to `reorder` are within `0..54`. -/
def InRange (pos : List Nat) : Prop := ∀ p ∈ pos, p ≤ 54

/-! ## Slices and `reorder` -/

theorem slice_zero (d : Deck) (n : Nat) : slice d 0 n = d.take n := by
  simp [slice]

theorem slice_to_end (d : Deck) (a : Nat) : slice d a d.length = d.drop a := by
  simp [slice]

theorem split_at_slice (d : Deck) (a b : Nat) (hab : a ≤ b) :
    d.take a ++ slice d a b ++ d.drop b = d := by
  have h1 : d.drop b = (d.drop a).drop (b - a) := by
    rw [List.drop_drop]; congr 1; omega
  rw [slice, h1, List.append_assoc, List.take_append_drop, List.take_append_drop]

theorem reorder_three (d : Deck) (a b c e f g : Nat)
    (h1 : a ≤ b) (h2 : b ≤ d.length) (h3 : c ≤ e) (h4 : e ≤ d.length)
    (h5 : f ≤ g) (h6 : g ≤ d.length) :
    reorder d [a, b, c, e, f, g] = some (slice d a b ++ slice d c e ++ slice d f g) := by
  simp [reorder, reorderLoop, h1, h2, h3, h4, h5, h6]

/-! ## `find` -/

theorem find_some_of_mem (d : Deck) (t : card) (h : t ∈ d) :
    ∃ i, find d t = some i := by
  induction d with
  | nil => simp at h
  | cons c cs ih =>
    by_cases hc : c = t
    · exact ⟨0, by simp [find, hc]⟩
    · have : t ∈ cs := by
        rcases List.mem_cons.mp h with h | h
        · exact absurd h.symm hc
        · exact h
      obtain ⟨i, hi⟩ := ih this
      exact ⟨i + 1, by simp [find, hc, hi]⟩

theorem find_spec (d : Deck) (t : card) (i : Nat) (h : find d t = some i) :
    d[i]? = some t ∧ ∀ j, j < i → d[j]? ≠ some t := by
  induction d generalizing i with
  | nil => simp [find] at h
  | cons c cs ih =>
    by_cases hc : c = t
    · simp [find, hc] at h
      subst h
      simp [hc]
    · simp only [find, hc, if_false, Option.map_eq_some'] at h
      obtain ⟨k, hk, rfl⟩ := h
      obtain ⟨h1, h2⟩ := ih k hk
      refine ⟨by simpa using h1, ?_⟩
      intro j hj
      cases j with
      | zero => simpa using hc
      | succ j => simpa using h2 j (by omega)

theorem find_lt (d : Deck) (t : card) (i : Nat) (h : find d t = some i) : i < d.length := by
  have := (find_spec d t i h).1
  exact (List.getElem?_eq_some.mp this).1

/-! ## `moveDown` -/

theorem swap_eq (d : Deck) (pos : Nat) (x y : card)
    (hx : d[pos]? = some x) (hy : d[pos + 1]? = some y) :
    d = d.take pos ++ x :: y :: d.drop (pos + 2) ∧
    (d.set pos y).set (pos + 1) x = d.take pos ++ y :: x :: d.drop (pos + 2) := by
  induction d generalizing pos with
  | nil => simp at hx
  | cons c cs ih =>
    cases pos with
    | zero =>
      cases cs with
      | nil => simp at hy
      | cons c2 cs2 =>
        simp at hx hy
        subst hx; subst hy
        simp
    | succ p =>
      have hx2 : cs[p]? = some x := by simpa using hx
      have hy2 : cs[p + 1]? = some y := by simpa using hy
      obtain ⟨h1, h2⟩ := ih p hx2 hy2
      constructor
      · simp only [List.take_succ_cons, List.drop_succ_cons, List.cons_append]
        rw [← h1]
      · simp only [List.set_cons_succ, List.take_succ_cons, List.drop_succ_cons,
          List.cons_append]
        rw [h2]

theorem swap_perm (d : Deck) (pos : Nat) (x y : card)
    (hx : d[pos]? = some x) (hy : d[pos + 1]? = some y) :
    List.Perm ((d.set pos y).set (pos + 1) x) d := by
  obtain ⟨h1, h2⟩ := swap_eq d pos x y hx hy
  rw [h2]
  conv => rhs; rw [h1]
  exact List.Perm.append_left _ (List.Perm.swap _ _ _)

theorem wrap_eq (d : Deck) (h : d.length = 54) :
    reorder d [0, 1, 53, 54, 1, 53] = some (d.take 1 ++ d.drop 53 ++ slice d 1 53) := by
  rw [reorder_three d 0 1 53 54 1 53 (by omega) (by omega) (by omega) (by omega) (by omega)
    (by omega)]
  have := slice_to_end d 53
  rw [h] at this
  rw [slice_zero, this]

theorem wrap_perm (d : Deck) :
    List.Perm (d.take 1 ++ d.drop 53 ++ slice d 1 53) d := by
  have h := split_at_slice d 1 53 (by omega)
  conv => rhs; rw [← h]
  rw [List.append_assoc, List.append_assoc]
  exact List.Perm.append_left _ List.perm_append_comm

theorem moveDown_perm (off : Nat) (d : Deck) (pos : Nat) (h : d.length = 54) (hp : pos < 54) :
    ∃ d1, moveDown d pos off = some d1 ∧ List.Perm d1 d := by
  induction off generalizing d pos with
  | zero => exact ⟨d, by simp [moveDown], List.Perm.refl _⟩
  | succ off ih =>
    by_cases hw : pos + 1 = d.length
    · have hl : (d.take 1 ++ d.drop 53 ++ slice d 1 53).length = 54 := by
        rw [(wrap_perm d).length_eq, h]
      obtain ⟨d1, h1, h2⟩ := ih _ 1 hl (by omega)
      refine ⟨d1, ?_, h2.trans (wrap_perm d)⟩
      rw [moveDown, if_pos hw, wrap_eq d h]
      exact h1
    · have hx : d[pos]? = some d[pos] := List.getElem?_eq_getElem (by omega)
      have hy : d[pos + 1]? = some d[pos + 1] := List.getElem?_eq_getElem (by omega)
      have hperm := swap_perm d pos _ _ hx hy
      obtain ⟨d1, h1, h2⟩ := ih _ (pos + 1) (by rw [hperm.length_eq, h]) (by omega)
      refine ⟨d1, ?_, h2.trans hperm⟩
      rw [moveDown, if_neg hw, hx, hy]
      exact h1

/-! ## The cuts -/

theorem tripleCut_eq (d : Deck) (a b : Nat) (h : d.length = 54)
    (ha : find d jokerA = some a) (hb : find d jokerB = some b) :
    tripleCut d = some (d.drop (max a b + 1) ++ slice d (min a b) (max a b + 1)
      ++ d.take (min a b)) := by
  have hal := find_lt d _ _ ha
  have hbl := find_lt d _ _ hb
  have e1 : (if a > b then b else a) = min a b := by
    split <;> omega
  have e2 : (if a > b then a else b) = max a b := by
    split <;> omega
  simp only [tripleCut, ha, hb, e1, e2]
  rw [reorder_three d _ _ _ _ _ _ (by omega) (by omega) (by omega) (by omega) (by omega)
    (by omega)]
  have := slice_to_end d (max a b + 1)
  rw [h] at this
  rw [slice_zero, this]

theorem tripleCut_shape_perm (d : Deck) (lo hi : Nat) (hle : lo ≤ hi) :
    List.Perm (d.drop hi ++ slice d lo hi ++ d.take lo) d := by
  have hs := split_at_slice d lo hi hle
  conv => rhs; rw [← hs]
  refine List.perm_append_comm.trans ?_
  rw [List.append_assoc]
  exact List.Perm.append_left _ List.perm_append_comm

theorem countCut_eq (d : Deck) (count : Nat) (h : d.length = 54) (hc : count ≤ 53) :
    countCut d count = some (slice d count 53 ++ d.take count ++ d.drop 53) := by
  rw [countCut, reorder_three d _ _ _ _ _ _ hc (by omega) (by omega) (by omega) (by omega)
    (by omega)]
  have := slice_to_end d 53
  rw [h] at this
  rw [slice_zero, this]

theorem countCut_shape_perm (d : Deck) (count : Nat) (hc : count ≤ 53) :
    List.Perm (slice d count 53 ++ d.take count ++ d.drop 53) d := by
  have hs := split_at_slice d count 53 hc
  conv => rhs; rw [← hs]
  exact List.Perm.append_right _ List.perm_append_comm

/-! ## Every operation rearranges the deck -/

theorem moveJokers_perm (d : Deck) (h : d.length = 54) (ha : jokerA ∈ d) (hb : jokerB ∈ d) :
    ∃ d1, moveJokers d = some d1 ∧ List.Perm d1 d := by
  obtain ⟨a, hfa⟩ := find_some_of_mem d _ ha
  obtain ⟨d1, hm1, hp1⟩ := moveDown_perm 1 d a h (by have := find_lt d _ _ hfa; omega)
  have hl1 : d1.length = 54 := by rw [hp1.length_eq, h]
  obtain ⟨b, hfb⟩ := find_some_of_mem d1 _ (hp1.mem_iff.mpr hb)
  obtain ⟨d2, hm2, hp2⟩ := moveDown_perm 2 d1 b hl1 (by have := find_lt d1 _ _ hfb; omega)
  exact ⟨d2, by simp [moveJokers, hfa, hm1, hfb, hm2], hp2.trans hp1⟩

theorem tripleCut_perm (d : Deck) (h : d.length = 54) (ha : jokerA ∈ d) (hb : jokerB ∈ d) :
    ∃ d1, tripleCut d = some d1 ∧ List.Perm d1 d := by
  obtain ⟨a, hfa⟩ := find_some_of_mem d _ ha
  obtain ⟨b, hfb⟩ := find_some_of_mem d _ hb
  exact ⟨_, tripleCut_eq d a b h hfa hfb, tripleCut_shape_perm d _ _ (by omega)⟩

theorem countCut_perm (d : Deck) (count : Nat) (h : d.length = 54) (hc : count ≤ 53) :
    ∃ d1, countCut d count = some d1 ∧ List.Perm d1 d :=
  ⟨_, countCut_eq d count h hc, countCut_shape_perm d count hc⟩

theorem isJoker_iff (c : Nat) : isJoker c = true ↔ c = 53 ∨ c = 54 := by
  simp [isJoker, jokerA, jokerB]

theorem value_eq (c : Nat) : value c = if c = 53 ∨ c = 54 then 53 else c := by
  simp [value, isJoker, jokerA, jokerB]

theorem value_le (c : Nat) (h : c ≤ 54) : value c ≤ 53 := by
  rw [value_eq]
  split <;> omega

theorem value_pos (c : Nat) (h : 1 ≤ c) : 1 ≤ value c := by
  rw [value_eq]
  split <;> omega

theorem value_of_not_joker (c : Nat) (h : isJoker c = false) : value c = c := by
  simp [value, h]

theorem IsDeck.length_eq {d : Deck} (h : IsDeck d) : d.length = 54 := by
  have := List.Perm.length_eq h
  simpa using this

theorem IsDeck.mem_iff {d : Deck} (h : IsDeck d) (c : Nat) : c ∈ d ↔ 1 ≤ c ∧ c ≤ 54 := by
  rw [List.Perm.mem_iff h, List.mem_range'_1]
  omega

theorem IsDeck.of_perm {d d1 : Deck} (h : IsDeck d) (hp : List.Perm d1 d) : IsDeck d1 :=
  List.Perm.trans hp h

theorem IsDeck.nodup {d : Deck} (h : IsDeck d) : d.Nodup :=
  (List.Perm.nodup_iff h).mpr (List.nodup_range' 1 54)

theorem step_perm (d : Deck) (h : IsDeck d) : ∃ d1, step d = some d1 ∧ List.Perm d1 d := by
  have hmem := h.mem_iff
  obtain ⟨d1, hm, hp1⟩ := moveJokers_perm d h.length_eq ((hmem _).mpr (by decide))
    ((hmem _).mpr (by decide))
  have hd1 := h.of_perm hp1
  obtain ⟨d2, ht, hp2⟩ := tripleCut_perm d1 hd1.length_eq ((hd1.mem_iff _).mpr (by decide))
    ((hd1.mem_iff _).mpr (by decide))
  have hd2 := hd1.of_perm hp2
  have hlt : 53 < d2.length := by rw [hd2.length_eq]; omega
  have hb : d2[53]? = some d2[53] := List.getElem?_eq_getElem hlt
  have hbm : d2[53] ∈ d2 := List.getElem_mem _
  have hv : value d2[53] ≤ 53 := value_le _ ((hd2.mem_iff _).mp hbm).2
  obtain ⟨d3, hc, hp3⟩ := countCut_perm d2 _ hd2.length_eq hv
  exact ⟨d3, by simp [step, hm, ht, hb, hc], hp3.trans (hp2.trans hp1)⟩

theorem step_isDeck (d d1 : Deck) (h : IsDeck d) (hs : step d = some d1) : IsDeck d1 := by
  obtain ⟨d2, h2, hp⟩ := step_perm d h
  rw [hs] at h2
  cases h2
  exact h.of_perm hp

/-! ## `output` -/

theorem output_succ (fuel : Nat) (d : Deck) :
    output (fuel + 1) d =
      match step d with
      | none => .panicked
      | some d1 =>
        match candidate d1 with
        | none => .panicked
        | some out => if isJoker out then output fuel d1 else .returned (d1, value out) := by
  rw [output]
  cases step d with
  | none => rfl
  | some d1 =>
    simp only [candidate]
    cases d1[0]? with
    | none => rfl
    | some count => rfl

theorem candidate_isDeck (d : Deck) (h : IsDeck d) :
    ∃ c : Nat, candidate d = some c ∧ 1 ≤ c ∧ c ≤ 54 := by
  have hl := h.length_eq
  have h0 : 0 < d.length := by omega
  have hm0 : d[0] ∈ d := List.getElem_mem _
  have hv : value d[0] < d.length := by
    have := value_le _ ((h.mem_iff _).mp hm0).2
    omega
  refine ⟨d[value d[0]], ?_, (h.mem_iff _).mp (List.getElem_mem _)⟩
  simp [candidate, List.getElem?_eq_getElem h0, List.getElem?_eq_getElem hv]

theorem output_isDeck (fuel : Nat) (d : Deck) (h : IsDeck d) :
    output fuel d ≠ .panicked ∧
    ∀ d1 k, output fuel d = .returned (d1, k) → IsDeck d1 ∧ 1 ≤ k ∧ k ≤ 52 := by
  induction fuel generalizing d with
  | zero => simp [output]
  | succ fuel ih =>
    obtain ⟨d1, hs, hp⟩ := step_perm d h
    have hd1 := h.of_perm hp
    obtain ⟨c, hc, hc1, hc2⟩ := candidate_isDeck d1 hd1
    rw [output_succ, hs]
    simp only [hc]
    by_cases hj : isJoker c = true
    · simp only [hj, if_true]
      exact ih d1 hd1
    · simp only [hj]
      refine ⟨by simp, ?_⟩
      intro d2 k hk
      simp only [Bool.false_eq_true, if_false, Outcome.returned.injEq, Prod.mk.injEq] at hk
      obtain ⟨rfl, rfl⟩ := hk
      have hnj : ¬ (c = 53 ∨ c = 54) := fun hh => hj ((isJoker_iff c).mpr hh)
      refine ⟨hd1, ?_, ?_⟩ <;> (rw [value_eq]; split <;> omega)

theorem output_mono (fuel : Nat) (d : Deck) (r : Deck × Nat)
    (h : output fuel d = .returned r) : output (fuel + 1) d = .returned r := by
  induction fuel generalizing d with
  | zero => simp [output] at h
  | succ fuel ih =>
    rw [output_succ] at h ⊢
    cases hs : step d with
    | none => simp [hs] at h
    | some d1 =>
      simp only [hs] at h ⊢
      cases hc : candidate d1 with
      | none => simp [hc] at h
      | some c =>
        simp only [hc] at h ⊢
        by_cases hj : isJoker c = true
        · simp only [hj, if_true] at h ⊢
          exact ih d1 h
        · simp only [hj] at h ⊢
          exact h

theorem output_mono_le (fuel fuel1 : Nat) (d : Deck) (r : Deck × Nat) (hle : fuel ≤ fuel1)
    (h : output fuel d = .returned r) : output fuel1 d = .returned r := by
  induction hle with
  | refl => exact h
  | step _ ih => exact output_mono _ d r ih

/-! ## Characters -/

theorem char_lt_iff (a b : Char) : a < b ↔ a.toNat < b.toNat := by
  rw [Char.lt_def]
  exact Iff.rfl

theorem char_le_iff (a b : Char) : a ≤ b ↔ a.toNat ≤ b.toNat := by
  rw [Char.le_def]
  exact Iff.rfl

theorem toNat_ofNat (n : Nat) (h : n < 55296) : (Char.ofNat n).toNat = n := by
  have hv : n.isValidChar := Or.inl h
  simp only [Char.ofNat, hv, dite_true, Char.ofNatAux, Char.toNat]
  rfl

theorem utf8Size_ascii (c : Char) (h : c.toNat ≤ 127) : c.utf8Size = 1 := by
  have : c.val ≤ 127 := by
    rw [UInt32.le_def]
    exact h
  simp [Char.utf8Size, this]

theorem upper_iff (c : Char) : ('A' ≤ c ∧ c ≤ 'Z') ↔ (65 ≤ c.toNat ∧ c.toNat ≤ 90) := by
  rw [char_le_iff, char_le_iff]
  exact Iff.rfl

theorem not_upper_iff (c : Char) : (c < 'A' ∨ c > 'Z') ↔ ¬ ('A' ≤ c ∧ c ≤ 'Z') := by
  rw [upper_iff, gt_iff_lt, char_lt_iff, char_lt_iff]
  show c.toNat < 65 ∨ 90 < c.toNat ↔ _
  omega

theorem len_upper (s : GoString) (h : Upper s) : len s = s.length := by
  induction s with
  | nil => rfl
  | cons c cs ih =>
    have hc := (upper_iff c).mp (h c (List.mem_cons_self _ _))
    have hcs : Upper cs := fun x hx => h x (List.mem_cons_of_mem _ hx)
    have := ih hcs
    simp only [len, List.map_cons, List.sum_cons, List.length_cons] at this ⊢
    rw [this, utf8Size_ascii c (by omega)]
    omega

theorem runeChar_of_small (r : Int) (h0 : 0 ≤ r) (h1 : r < 55296) :
    runeChar r = Char.ofNat r.toNat ∧ (runeChar r).toNat = r.toNat := by
  have hv : r.toNat.isValidChar := Or.inl (by omega)
  have : runeChar r = Char.ofNat r.toNat := by simp [runeChar, h0, hv]
  exact ⟨this, by rw [this, toNat_ofNat _ (by omega)]⟩

/-! ## The letter arithmetic -/

theorem tmod_bounds (x : Int) : -26 < Int.tmod x 26 ∧ Int.tmod x 26 < 26 := by
  constructor
  · rcases x with n | n
    · have := Int.tmod_nonneg 26 (Int.ofNat_nonneg n)
      exact lt_of_lt_of_le (by norm_num) this
    · show -26 < -((((n + 1) % 26 : Nat)) : Int)
      omega
  · exact Int.tmod_lt_of_pos x (by norm_num)

theorem toNat_A : 'A'.toNat = 65 := by decide

theorem keyedChar_toNat (decrypt : Bool) (c : Char) (out : Nat) :
    ((keyedChar decrypt c out).toNat : Int) =
      65 + Int.tmod ((c.toNat : Int) - 65 +
        (if decrypt then 52 - (out : Int) else (out : Int))) 26 := by
  have hb := tmod_bounds ((c.toNat : Int) - 65 +
        (if decrypt then 52 - (out : Int) else (out : Int)))
  unfold keyedChar
  rw [toNat_A]
  obtain ⟨-, h2⟩ := runeChar_of_small (((65 : Nat) : Int) + Int.tmod ((c.toNat : Int) - ((65 : Nat) : Int) +
        (if decrypt then 52 - (out : Int) else (out : Int))) 26) (by push_cast; omega)
        (by push_cast; omega)
  rw [h2]
  push_cast
  omega

theorem keyedChar_ne_space (decrypt : Bool) (c : Char) (out : Nat) :
    keyedChar decrypt c out ≠ ' ' := by
  intro h
  have h1 := keyedChar_toNat decrypt c out
  have hb := tmod_bounds ((c.toNat : Int) - 65 +
        (if decrypt then 52 - (out : Int) else (out : Int)))
  rw [h] at h1
  have : ' '.toNat = 32 := by decide
  rw [this] at h1
  omega

theorem letter_toNat (n : Int) : (letter n).toNat = 65 + (n % 26).toNat := by
  unfold letter
  rw [toNat_ofNat]
  omega

theorem letter_upper (n : Int) : 'A' ≤ letter n ∧ letter n ≤ 'Z' := by
  rw [upper_iff, letter_toNat]
  omega

theorem alphaIndex_letter (n : Int) : alphaIndex (letter n) = n % 26 := by
  unfold alphaIndex
  rw [letter_toNat]
  omega

theorem char_eq_of_toNat_eq (a b : Char) (h : a.toNat = b.toNat) : a = b := by
  rw [← Char.ofNat_toNat a, ← Char.ofNat_toNat b, h]

theorem letter_alphaIndex (c : Char) (h : 'A' ≤ c ∧ c ≤ 'Z') : letter (alphaIndex c) = c := by
  rw [upper_iff] at h
  apply char_eq_of_toNat_eq
  rw [letter_toNat]
  unfold alphaIndex
  omega

theorem keyedChar_encrypt (c : Char) (out : Nat) (h : 'A' ≤ c ∧ c ≤ 'Z') :
    keyedChar false c out = letter (alphaIndex c + out) := by
  rw [upper_iff] at h
  apply char_eq_of_toNat_eq
  have h1 := keyedChar_toNat false c out
  rw [letter_toNat]
  unfold alphaIndex
  simp only [Bool.false_eq_true, if_false] at h1
  rw [Int.tmod_eq_emod (by omega) (by omega)] at h1
  omega

theorem keyedChar_decrypt (c : Char) (out : Nat) (h : 'A' ≤ c ∧ c ≤ 'Z') (hk : out ≤ 52) :
    0 ≤ alphaIndex c + (52 - (out : Int)) ∧
    keyedChar true c out = letter (alphaIndex c - out) := by
  rw [upper_iff] at h
  refine ⟨by unfold alphaIndex; omega, ?_⟩
  apply char_eq_of_toNat_eq
  have h1 := keyedChar_toNat true c out
  rw [letter_toNat]
  unfold alphaIndex
  simp only [if_true] at h1
  rw [Int.tmod_eq_emod (by omega) (by omega)] at h1
  omega

theorem letter_add_sub (c : Char) (k : Int) (h : 'A' ≤ c ∧ c ≤ 'Z') :
    letter (alphaIndex (letter (alphaIndex c + k)) - k) = c ∧
    letter (alphaIndex (letter (alphaIndex c - k)) + k) = c := by
  have hc := letter_alphaIndex c h
  rw [upper_iff] at h
  rw [alphaIndex_letter, alphaIndex_letter]
  constructor
  · have : ((alphaIndex c + k) % 26 - k) % 26 = alphaIndex c % 26 := by omega
    unfold letter at hc ⊢
    rw [this]; exact hc
  · have : ((alphaIndex c - k) % 26 + k) % 26 = alphaIndex c % 26 := by omega
    unfold letter at hc ⊢
    rw [this]; exact hc

/-! ## The keystream -/

theorem keystream_succ_returned (fuel n : Nat) (d d1 : Deck) (k : Nat)
    (h : output fuel d = .returned (d1, k)) :
    keystream fuel (n + 1) d =
      match keystream fuel n d1 with
      | .panicked => .panicked
      | .outOfFuel => .outOfFuel
      | .returned (d2, ks) => .returned (d2, k :: ks) := by
  rw [keystream, h]

theorem keystream_isDeck (fuel n : Nat) (d : Deck) (h : IsDeck d) :
    keystream fuel n d ≠ .panicked ∧
    ∀ d1 ks, keystream fuel n d = .returned (d1, ks) →
      IsDeck d1 ∧ ks.length = n ∧ ∀ k ∈ ks, 1 ≤ k ∧ k ≤ 52 := by
  induction n generalizing d with
  | zero =>
    refine ⟨by simp [keystream], ?_⟩
    intro d1 ks hk
    simp only [keystream, Outcome.returned.injEq, Prod.mk.injEq] at hk
    obtain ⟨rfl, rfl⟩ := hk
    exact ⟨h, rfl, by simp⟩
  | succ n ih =>
    obtain ⟨hnp, hret⟩ := output_isDeck fuel d h
    cases ho : output fuel d with
    | panicked => exact absurd ho hnp
    | outOfFuel => simp [keystream, ho]
    | returned r =>
      obtain ⟨d1, k⟩ := r
      obtain ⟨hd1, hk1, hk2⟩ := hret d1 k ho
      obtain ⟨ihp, ihr⟩ := ih d1 hd1
      rw [keystream_succ_returned fuel n d d1 k ho]
      cases hks : keystream fuel n d1 with
      | panicked => exact absurd hks ihp
      | outOfFuel => simp
      | returned r2 =>
        obtain ⟨d2, ks⟩ := r2
        obtain ⟨hd2, hlen, hall⟩ := ihr d2 ks hks
        refine ⟨by simp, ?_⟩
        intro d3 ks3 h3
        simp only [Outcome.returned.injEq, Prod.mk.injEq] at h3
        obtain ⟨rfl, rfl⟩ := h3
        refine ⟨hd2, by simp [hlen], ?_⟩
        intro x hx
        rcases List.mem_cons.mp hx with hx | hx
        · subst hx; exact ⟨hk1, hk2⟩
        · exact hall x hx

theorem keystream_mono_le (fuel fuel1 n : Nat) (d : Deck) (r : Deck × List Nat)
    (hle : fuel ≤ fuel1) (h : keystream fuel n d = .returned r) :
    keystream fuel1 n d = .returned r := by
  induction n generalizing d r with
  | zero => simpa [keystream] using h
  | succ n ih =>
    cases ho : output fuel d with
    | panicked => simp [keystream, ho] at h
    | outOfFuel => simp [keystream, ho] at h
    | returned r1 =>
      obtain ⟨d1, k⟩ := r1
      rw [keystream_succ_returned fuel n d d1 k ho] at h
      rw [keystream_succ_returned fuel1 n d d1 k (output_mono_le fuel fuel1 d _ hle ho)]
      cases hks : keystream fuel n d1 with
      | panicked => simp [hks] at h
      | outOfFuel => simp [hks] at h
      | returned r2 =>
        rw [ih d1 r2 hks]
        rw [hks] at h
        exact h

/-! ## The loop of `addToKeystream` -/

theorem loop_cons_valid (fuel : Nat) (decrypt : Bool) (c : Char) (rest : GoString) (d : Deck)
    (i : Nat) (keyed : GoString) (hc : 'A' ≤ c ∧ c ≤ 'Z') :
    addToKeystreamLoop fuel decrypt (c :: rest) d i keyed =
      match output fuel d with
      | .panicked => .panicked
      | .outOfFuel => .outOfFuel
      | .returned (d1, out) =>
        addToKeystreamLoop fuel decrypt rest d1 (i + 1)
          ((if i > 0 ∧ i % 5 = 0 then keyed ++ [' '] else keyed) ++
            [keyedChar decrypt c out]) := by
  have hn : ¬ (c < 'A' ∨ c > 'Z') := fun hh => ((not_upper_iff c).mp hh) hc
  have hs : c.utf8Size = 1 := utf8Size_ascii c (by have := (upper_iff c).mp hc; omega)
  rw [addToKeystreamLoop, if_neg hn, hs]
  rfl

theorem loop_valid (fuel : Nat) (decrypt : Bool) (msg : GoString) (hv : Upper msg) (d : Deck)
    (i : Nat) (keyed : GoString) :
    addToKeystreamLoop fuel decrypt msg d i keyed =
      match keystream fuel msg.length d with
      | .panicked => .panicked
      | .outOfFuel => .outOfFuel
      | .returned (d1, ks) =>
        .returned (d1, keyed ++ spaced i (List.zipWith (keyedChar decrypt) msg ks), none) := by
  induction msg generalizing d i keyed with
  | nil => simp [addToKeystreamLoop, keystream, spaced]
  | cons c rest ih =>
    have hc := hv c (List.mem_cons_self _ _)
    have hrest : Upper rest := fun x hx => hv x (List.mem_cons_of_mem _ hx)
    rw [loop_cons_valid fuel decrypt c rest d i keyed hc]
    cases ho : output fuel d with
    | panicked => simp [keystream, ho]
    | outOfFuel => simp [keystream, ho]
    | returned r =>
      obtain ⟨d1, k⟩ := r
      simp only [List.length_cons]
      rw [keystream_succ_returned fuel rest.length d d1 k ho, ih hrest]
      cases hks : keystream fuel rest.length d1 with
      | panicked => rfl
      | outOfFuel => rfl
      | returned r2 =>
        obtain ⟨d2, ks⟩ := r2
        simp only [List.zipWith_cons_cons, spaced]
        by_cases hi : i > 0 ∧ i % 5 = 0
        · simp [hi]
        · simp [hi]

theorem loop_invalid (fuel : Nat) (decrypt : Bool) (pre : GoString) (c : Char)
    (post : GoString) (hv : Upper pre) (hc : ¬ ('A' ≤ c ∧ c ≤ 'Z')) (d : Deck)
    (i : Nat) (keyed : GoString) :
    addToKeystreamLoop fuel decrypt (pre ++ c :: post) d i keyed =
      match keystream fuel pre.length d with
      | .panicked => .panicked
      | .outOfFuel => .outOfFuel
      | .returned (d1, _) => .returned (d1, [], some (invalidCharacter c)) := by
  induction pre generalizing d i keyed with
  | nil =>
    have hn : c < 'A' ∨ c > 'Z' := (not_upper_iff c).mpr hc
    simp [addToKeystreamLoop, keystream, hn]
  | cons x rest ih =>
    have hx := hv x (List.mem_cons_self _ _)
    have hrest : Upper rest := fun y hy => hv y (List.mem_cons_of_mem _ hy)
    rw [List.cons_append, loop_cons_valid fuel decrypt x _ d i keyed hx]
    cases ho : output fuel d with
    | panicked => simp [keystream, ho]
    | outOfFuel => simp [keystream, ho]
    | returned r =>
      obtain ⟨d1, k⟩ := r
      simp only [List.length_cons]
      rw [keystream_succ_returned fuel rest.length d d1 k ho, ih hrest]
      cases hks : keystream fuel rest.length d1 with
      | panicked => rfl
      | outOfFuel => rfl
      | returned r2 => rfl

/-! ## The first invalid character -/

theorem firstInvalid_none_iff (s : GoString) : firstInvalid s = none ↔ Upper s := by
  simp [firstInvalid, Upper, List.find?_eq_none]

theorem firstInvalid_some (s : GoString) (c : Char) (h : firstInvalid s = some c) :
    ¬ ('A' ≤ c ∧ c ≤ 'Z') ∧ ∃ pre post, s = pre ++ c :: post ∧ Upper pre := by
  induction s with
  | nil => simp [firstInvalid] at h
  | cons x xs ih =>
    by_cases hx : 'A' ≤ x ∧ x ≤ 'Z'
    · have hd : decide (¬ ('A' ≤ x ∧ x ≤ 'Z')) = false := decide_eq_false (not_not.mpr hx)
      have h2 : firstInvalid xs = some c := by
        simp only [firstInvalid, List.find?_cons, hd] at h
        exact h
      obtain ⟨hc, pre, post, rfl, hpre⟩ := ih h2
      refine ⟨hc, x :: pre, post, rfl, ?_⟩
      intro y hy
      rcases List.mem_cons.mp hy with hy | hy
      · subst hy; exact hx
      · exact hpre y hy
    · have hd : decide (¬ ('A' ≤ x ∧ x ≤ 'Z')) = true := decide_eq_true hx
      have h2 : x = c := by
        simp only [firstInvalid, List.find?_cons, hd, Option.some.injEq] at h
        exact h
      subst h2
      exact ⟨hx, [], xs, rfl, by intro y hy; simp at hy⟩

theorem firstInvalid_append_upper (pre : GoString) (c : Char) (post : GoString)
    (hpre : Upper pre) (hc : ¬ ('A' ≤ c ∧ c ≤ 'Z')) :
    firstInvalid (pre ++ c :: post) = some c := by
  induction pre with
  | nil =>
    have hd : decide (¬ ('A' ≤ c ∧ c ≤ 'Z')) = true := decide_eq_true hc
    simp only [firstInvalid, List.nil_append, List.find?_cons, hd]
  | cons x xs ih =>
    have hx := hpre x (List.mem_cons_self _ _)
    have hxs : Upper xs := fun y hy => hpre y (List.mem_cons_of_mem _ hy)
    have hd : decide (¬ ('A' ≤ x ∧ x ≤ 'Z')) = false := decide_eq_false (not_not.mpr hx)
    have := ih hxs
    simp only [firstInvalid, List.cons_append, List.find?_cons, hd] at this ⊢
    exact this

theorem upper_or_firstInvalid (s : GoString) : Upper s ∨ ∃ c, firstInvalid s = some c := by
  cases h : firstInvalid s with
  | none => exact Or.inl ((firstInvalid_none_iff s).mp h)
  | some c => exact Or.inr ⟨c, rfl⟩

theorem upper_append {s t : GoString} (hs : Upper s) (ht : Upper t) : Upper (s ++ t) := by
  intro c hc
  rcases List.mem_append.mp hc with h | h
  · exact hs c h
  · exact ht c h

theorem upper_replicate_X (n : Nat) : Upper (List.replicate n 'X') := by
  intro c hc
  have := List.eq_of_mem_replicate hc
  subst this
  decide

/-! ## Spacing -/

theorem stripSpaces_spaced (i : Nat) (xs : List Char) (h : ∀ x ∈ xs, x ≠ ' ') :
    stripSpaces (spaced i xs) = xs := by
  induction xs generalizing i with
  | nil => rfl
  | cons x xs ih =>
    have hx : x ≠ ' ' := h x (List.mem_cons_self _ _)
    have hxs : ∀ y ∈ xs, y ≠ ' ' := fun y hy => h y (List.mem_cons_of_mem _ hy)
    have := ih (i + 1) hxs
    unfold stripSpaces at this ⊢
    by_cases hi : i > 0 ∧ i % 5 = 0
    · simp [spaced, hi, List.filter_cons, hx, this]
    · simp [spaced, hi, List.filter_cons, hx, this]

theorem stripSpaces_of_no_space (xs : List Char) (h : ∀ x ∈ xs, x ≠ ' ') :
    stripSpaces xs = xs := by
  unfold stripSpaces
  rw [List.filter_eq_self]
  intro a ha
  simpa using h a ha

theorem spaced_snoc (i : Nat) (xs : List Char) (x : Char) :
    spaced i (xs ++ [x]) =
      spaced i xs ++
        (if i + xs.length > 0 ∧ (i + xs.length) % 5 = 0 then [' ', x] else [x]) := by
  induction xs generalizing i with
  | nil => simp [spaced]
  | cons y ys ih =>
    have e : i + 1 + ys.length = i + (ys.length + 1) := by omega
    rw [List.cons_append, spaced, spaced, ih (i + 1), List.length_cons, e, List.append_assoc]

theorem spaced_length (xs : List Char) :
    (spaced 0 xs).length = xs.length + (xs.length - 1) / 5 := by
  induction xs using List.reverseRecOn with
  | nil => rfl
  | append_singleton ys y ih =>
    rw [spaced_snoc, List.length_append, ih]
    simp only [Nat.zero_add, List.length_append, List.length_singleton]
    split <;> simp <;> omega

theorem spaced_positions (xs : List Char) (h : ∀ x ∈ xs, x ≠ ' ') (j : Nat) (c : Char)
    (hj : (spaced 0 xs)[j]? = some c) : c = ' ' ↔ j % 6 = 5 := by
  induction xs using List.reverseRecOn generalizing j c with
  | nil => simp [spaced] at hj
  | append_singleton ys y ih =>
    have hys : ∀ x ∈ ys, x ≠ ' ' := fun x hx => h x (List.mem_append_left _ hx)
    have hy : y ≠ ' ' := h y (List.mem_append_right _ (List.mem_singleton_self y))
    have hlen := spaced_length ys
    rw [spaced_snoc] at hj
    by_cases hlt : j < (spaced 0 ys).length
    · rw [List.getElem?_append_left hlt] at hj
      exact ih hys j c hj
    · rw [List.getElem?_append_right (by omega)] at hj
      simp only [Nat.zero_add] at hj
      by_cases hcond : ys.length > 0 ∧ ys.length % 5 = 0
      · simp only [hcond, and_self, if_true] at hj
        rcases Nat.lt_or_ge (j - (spaced 0 ys).length) 1 with h0 | h0
        · have e0 : j - (spaced 0 ys).length = 0 := by omega
          rw [e0] at hj
          simp at hj
          subst hj
          constructor
          · intro _; omega
          · intro _; rfl
        · rcases Nat.lt_or_ge (j - (spaced 0 ys).length) 2 with h1 | h1
          · have e1 : j - (spaced 0 ys).length = 1 := by omega
            rw [e1] at hj
            simp at hj
            subst hj
            constructor
            · intro hc; exact absurd hc hy
            · intro hm; omega
          · have : ([' ', y] : List Char)[j - (spaced 0 ys).length]? = none := by
              apply List.getElem?_eq_none
              simp; omega
            rw [this] at hj
            cases hj
      · simp only [hcond, if_false] at hj
        rcases Nat.lt_or_ge (j - (spaced 0 ys).length) 1 with h0 | h0
        · have e0 : j - (spaced 0 ys).length = 0 := by omega
          rw [e0] at hj
          simp at hj
          subst hj
          constructor
          · intro hc; exact absurd hc hy
          · intro hm; omega
        · have : ([y] : List Char)[j - (spaced 0 ys).length]? = none := by
            apply List.getElem?_eq_none
            simp; omega
          rw [this] at hj
          cases hj

/-! ## `addToKeystream`, `Encrypt` and `Decrypt` -/

theorem addToKeystream_valid (fuel : Nat) (d : Deck) (msg : GoString) (decrypt : Bool)
    (hv : Upper msg) :
    addToKeystream fuel d msg decrypt =
      match keystream fuel msg.length d with
      | .panicked => .panicked
      | .outOfFuel => .outOfFuel
      | .returned (d1, ks) =>
        .returned (d1, spaced 0 (List.zipWith (keyedChar decrypt) msg ks), none) := by
  rw [addToKeystream, loop_valid fuel decrypt msg hv d 0 []]
  cases keystream fuel msg.length d with
  | panicked => rfl
  | outOfFuel => rfl
  | returned r => obtain ⟨d1, ks⟩ := r; simp

theorem addToKeystream_invalid (fuel : Nat) (d : Deck) (pre : GoString) (c : Char)
    (post : GoString) (decrypt : Bool) (hv : Upper pre) (hc : ¬ ('A' ≤ c ∧ c ≤ 'Z')) :
    addToKeystream fuel d (pre ++ c :: post) decrypt =
      match keystream fuel pre.length d with
      | .panicked => .panicked
      | .outOfFuel => .outOfFuel
      | .returned (d1, _) => .returned (d1, [], some (invalidCharacter c)) := by
  rw [addToKeystream, loop_invalid fuel decrypt pre c post hv hc d 0 []]

theorem padX_length (s : GoString) : (padX s).length % 5 = 0 ∧ s.length ≤ (padX s).length ∧
    (padX s).length < s.length + 5 := by
  simp only [padX, List.length_append, List.length_replicate]
  omega

theorem padX_of_length (s : GoString) (h : s.length % 5 = 0) : padX s = s := by
  unfold padX
  rw [h]
  simp

theorem padX_upper (s : GoString) (h : Upper s) : Upper (padX s) :=
  upper_append h (upper_replicate_X _)

theorem Encrypt_upper (fuel : Nat) (d : Deck) (p : GoString) (h : Upper p) :
    Encrypt fuel d p = addToKeystream fuel d (padX p) false := by
  unfold Encrypt
  simp only [len_upper p h]
  by_cases h5 : p.length % 5 ≠ 0
  · rw [if_pos h5]
    have : (5 - p.length % 5) % 5 = 5 - p.length % 5 := by omega
    rw [padX, this]
  · rw [if_neg h5]
    have : (5 - p.length % 5) % 5 = 0 := by omega
    rw [padX, this]
    simp

theorem zipWith_keyedChar_no_space (decrypt : Bool) (msg : GoString) (ks : List Nat) :
    ∀ x ∈ List.zipWith (keyedChar decrypt) msg ks, x ≠ ' ' := by
  induction msg generalizing ks with
  | nil => simp
  | cons c cs ih =>
    cases ks with
    | nil => simp
    | cons k ks =>
      intro x hx
      simp only [List.zipWith_cons_cons, List.mem_cons] at hx
      rcases hx with hx | hx
      · subst hx; exact keyedChar_ne_space _ _ _
      · exact ih ks x hx

theorem zipWith_round_trip {α β : Type} (f g : α → β → α) (xs : List α) (ks : List β)
    (hlen : xs.length = ks.length) (h : ∀ x ∈ xs, ∀ k ∈ ks, f (g x k) k = x) :
    List.zipWith f (List.zipWith g xs ks) ks = xs := by
  induction xs generalizing ks with
  | nil => simp
  | cons x xs ih =>
    cases ks with
    | nil => simp at hlen
    | cons k ks =>
      simp only [List.zipWith_cons_cons]
      rw [h x (List.mem_cons_self _ _) k (List.mem_cons_self _ _)]
      rw [ih ks (by simpa using hlen)
        (fun y hy j hj => h y (List.mem_cons_of_mem _ hy) j (List.mem_cons_of_mem _ hj))]

theorem zipWith_upper (f : Char → Nat → Char) (xs : GoString) (ks : List Nat)
    (h : ∀ x ∈ xs, ∀ k ∈ ks, 'A' ≤ f x k ∧ f x k ≤ 'Z') : Upper (List.zipWith f xs ks) := by
  induction xs generalizing ks with
  | nil => intro c hc; simp at hc
  | cons x xs ih =>
    cases ks with
    | nil => intro c hc; simp at hc
    | cons k ks =>
      intro c hc
      simp only [List.zipWith_cons_cons, List.mem_cons] at hc
      rcases hc with hc | hc
      · subst hc; exact h x (List.mem_cons_self _ _) k (List.mem_cons_self _ _)
      · exact ih ks
          (fun y hy j hj => h y (List.mem_cons_of_mem _ hy) j (List.mem_cons_of_mem _ hj)) c hc

theorem keyedChar_round_trip (c : Char) (k : Nat) (h : 'A' ≤ c ∧ c ≤ 'Z') (hk : k ≤ 52) :
    keyedChar true (keyedChar false c k) k = c ∧ keyedChar false (keyedChar true c k) k = c := by
  have h1 := keyedChar_encrypt c k h
  have h2 := (keyedChar_decrypt c k h hk).2
  constructor
  · rw [h1, (keyedChar_decrypt _ k (letter_upper _) hk).2]
    exact (letter_add_sub c k h).1
  · rw [h2, keyedChar_encrypt _ k (letter_upper _)]
    exact (letter_add_sub c k h).2

theorem keyedChar_upper (decrypt : Bool) (c : Char) (k : Nat) (h : 'A' ≤ c ∧ c ≤ 'Z')
    (hk : k ≤ 52) : 'A' ≤ keyedChar decrypt c k ∧ keyedChar decrypt c k ≤ 'Z' := by
  cases decrypt with
  | false => rw [keyedChar_encrypt c k h]; exact letter_upper _
  | true => rw [(keyedChar_decrypt c k h hk).2]; exact letter_upper _

/-! ## `NewDeck` -/

theorem freshDeck_isDeck : IsDeck freshDeck := by
  unfold IsDeck freshDeck
  decide

theorem newDeckLoop_cons (c : Char) (rest : GoString) (d : Deck) :
    newDeckLoop (c :: rest) d =
      if c < 'A' ∨ c > 'Z' then some (none, some (invalidCharacter c))
      else
        match step d with
        | none => none
        | some d1 =>
          match countCut d1 (c.toNat + 1 - 'A'.toNat) with
          | none => none
          | some d2 => newDeckLoop rest d2 := rfl

theorem newDeckLoop_cons_eq (c : Char) (rest : GoString) (d d1 d2 : Deck)
    (hc : 'A' ≤ c ∧ c ≤ 'Z') (hs : step d = some d1)
    (hcc : countCut d1 (c.toNat + 1 - 65) = some d2) :
    newDeckLoop (c :: rest) d = newDeckLoop rest d2 := by
  have hn : ¬ (c < 'A' ∨ c > 'Z') := fun hh => ((not_upper_iff c).mp hh) hc
  have hA : c.toNat + 1 - 'A'.toNat = c.toNat + 1 - 65 := by rw [toNat_A]
  rw [newDeckLoop_cons, if_neg hn, hs, hA]
  simp only [hcc]

theorem newDeckLoop_cons_valid (c : Char) (d : Deck) (hd : IsDeck d)
    (hc : 'A' ≤ c ∧ c ≤ 'Z') :
    ∃ d1 d2, step d = some d1 ∧ countCut d1 (c.toNat + 1 - 65) = some d2 ∧ IsDeck d2 := by
  obtain ⟨d1, hs, hp1⟩ := step_perm d hd
  have hd1 := hd.of_perm hp1
  have hcnt : c.toNat + 1 - 65 ≤ 53 := by have := (upper_iff c).mp hc; omega
  obtain ⟨d2, hcc, hp2⟩ := countCut_perm d1 _ hd1.length_eq hcnt
  exact ⟨d1, d2, hs, hcc, hd1.of_perm hp2⟩

theorem newDeckLoop_valid (p : GoString) (d : Deck) (hd : IsDeck d) (hp : Upper p) :
    ∃ d1, newDeckLoop p d = some (some d1, none) ∧ IsDeck d1 := by
  induction p generalizing d with
  | nil => exact ⟨d, rfl, hd⟩
  | cons c rest ih =>
    have hc := hp c (List.mem_cons_self _ _)
    obtain ⟨d1, d2, hs, hcc, hd2⟩ := newDeckLoop_cons_valid c d hd hc
    rw [newDeckLoop_cons_eq c rest d d1 d2 hc hs hcc]
    exact ih d2 hd2 (fun x hx => hp x (List.mem_cons_of_mem _ hx))

theorem newDeckLoop_invalid (pre : GoString) (c : Char) (post : GoString) (d : Deck)
    (hd : IsDeck d) (hp : Upper pre) (hc : ¬ ('A' ≤ c ∧ c ≤ 'Z')) :
    newDeckLoop (pre ++ c :: post) d = some (none, some (invalidCharacter c)) := by
  induction pre generalizing d with
  | nil =>
    have hn : c < 'A' ∨ c > 'Z' := (not_upper_iff c).mpr hc
    rw [List.nil_append, newDeckLoop_cons, if_pos hn]
  | cons x rest ih =>
    have hx := hp x (List.mem_cons_self _ _)
    obtain ⟨d1, d2, hs, hcc, hd2⟩ := newDeckLoop_cons_valid x d hd hx
    rw [List.cons_append, newDeckLoop_cons_eq x _ d d1 d2 hx hs hcc]
    exact ih d2 hd2 (fun y hy => hp y (List.mem_cons_of_mem _ hy))

theorem newDeckLoop_snoc (p : GoString) (c : Char) (d : Deck) (hd : IsDeck d) (hp : Upper p) :
    ∃ d1, newDeckLoop p d = some (some d1, none) ∧ IsDeck d1 ∧
      newDeckLoop (p ++ [c]) d = newDeckLoop [c] d1 := by
  induction p generalizing d with
  | nil => exact ⟨d, rfl, hd, rfl⟩
  | cons x rest ih =>
    have hx := hp x (List.mem_cons_self _ _)
    obtain ⟨d1, d2, hs, hcc, hd2⟩ := newDeckLoop_cons_valid x d hd hx
    obtain ⟨d3, h3, hd3, h4⟩ := ih d2 hd2 (fun y hy => hp y (List.mem_cons_of_mem _ hy))
    refine ⟨d3, ?_, hd3, ?_⟩
    · rw [newDeckLoop_cons_eq x rest d d1 d2 hx hs hcc]; exact h3
    · rw [List.cons_append, newDeckLoop_cons_eq x _ d d1 d2 hx hs hcc]; exact h4

/-! ## `output` as a search for the first candidate that is not a joker -/

theorem stepN_succ_of_step (n : Nat) (d d1 : Deck) (h : step d = some d1) :
    stepN (n + 1) d = stepN n d1 := by
  rw [stepN, h]

theorem stepN_one (d : Deck) : stepN 1 d = step d := by
  rw [stepN]
  cases step d with
  | none => rfl
  | some d1 => rfl

theorem output_returned_iff (fuel : Nat) (d d1 : Deck) (k : Nat) :
    output fuel d = .returned (d1, k) ↔
      ∃ n, n < fuel ∧ stepN (n + 1) d = some d1 ∧
        (∃ c, candidate d1 = some c ∧ isJoker c = false ∧ k = value c) ∧
        ∀ m, m < n → ∃ dm cm, stepN (m + 1) d = some dm ∧ candidate dm = some cm ∧
          isJoker cm = true := by
  induction fuel generalizing d with
  | zero =>
    constructor
    · intro h; simp [output] at h
    · rintro ⟨n, hn, -⟩; omega
  | succ fuel ih =>
    rw [output_succ]
    cases hs : step d with
    | none =>
      constructor
      · intro h; simp at h
      · rintro ⟨n, -, h1, -⟩
        rw [stepN, hs] at h1
        cases h1
    | some d2 =>
      simp only
      cases hc : candidate d2 with
      | none =>
        constructor
        · intro h; simp at h
        · rintro ⟨n, -, h1, ⟨c, h2, -⟩, h3⟩
          cases n with
          | zero =>
            rw [stepN_one, hs] at h1
            cases h1
            rw [hc] at h2
            cases h2
          | succ n =>
            obtain ⟨dm, cm, h4, h5, -⟩ := h3 0 (by omega)
            rw [stepN_one, hs] at h4
            cases h4
            rw [hc] at h5
            cases h5
      | some c =>
        simp only
        by_cases hj : isJoker c = true
        · simp only [hj, if_true]
          rw [ih d2]
          constructor
          · rintro ⟨n, hn, h1, h2, h3⟩
            refine ⟨n + 1, by omega, ?_, h2, ?_⟩
            · rw [stepN_succ_of_step _ d d2 hs]; exact h1
            · intro m hm
              cases m with
              | zero => exact ⟨d2, c, by rw [stepN_one, hs], hc, hj⟩
              | succ m =>
                obtain ⟨dm, cm, h4, h5, h6⟩ := h3 m (by omega)
                exact ⟨dm, cm, by rw [stepN_succ_of_step _ d d2 hs]; exact h4, h5, h6⟩
          · rintro ⟨n, hn, h1, ⟨c2, h2, h2j, h2v⟩, h3⟩
            cases n with
            | zero =>
              rw [stepN_one, hs] at h1
              cases h1
              rw [hc] at h2
              cases h2
              rw [hj] at h2j
              cases h2j
            | succ n =>
              refine ⟨n, by omega, ?_, ⟨c2, h2, h2j, h2v⟩, ?_⟩
              · rw [stepN_succ_of_step _ d d2 hs] at h1; exact h1
              · intro m hm
                obtain ⟨dm, cm, h4, h5, h6⟩ := h3 (m + 1) (by omega)
                exact ⟨dm, cm, by rw [stepN_succ_of_step _ d d2 hs] at h4; exact h4, h5, h6⟩
        · have hjf : isJoker c = false := by simpa using hj
          simp only [hjf, Bool.false_eq_true, if_false, Outcome.returned.injEq, Prod.mk.injEq]
          constructor
          · rintro ⟨rfl, rfl⟩
            exact ⟨0, by omega, by rw [stepN_one, hs], ⟨c, hc, hjf, rfl⟩,
              fun m hm => absurd hm (by omega)⟩
          · rintro ⟨n, hn, h1, ⟨c2, h2, h2j, h2v⟩, h3⟩
            cases n with
            | zero =>
              rw [stepN_one, hs] at h1
              cases h1
              rw [hc] at h2
              cases h2
              exact ⟨rfl, h2v.symm⟩
            | succ n =>
              obtain ⟨dm, cm, h4, h5, h6⟩ := h3 0 (by omega)
              rw [stepN_one, hs] at h4
              cases h4
              rw [hc] at h5
              cases h5
              rw [hjf] at h6
              cases h6

theorem keystream_length (fuel n : Nat) (d d1 : Deck) (ks : List Nat)
    (h : keystream fuel n d = .returned (d1, ks)) : ks.length = n := by
  induction n generalizing d d1 ks with
  | zero =>
    simp only [keystream, Outcome.returned.injEq, Prod.mk.injEq] at h
    rw [← h.2]; rfl
  | succ n ih =>
    cases ho : output fuel d with
    | panicked => simp [keystream, ho] at h
    | outOfFuel => simp [keystream, ho] at h
    | returned r =>
      obtain ⟨d2, k⟩ := r
      rw [keystream_succ_returned fuel n d d2 k ho] at h
      cases hks : keystream fuel n d2 with
      | panicked => simp [hks] at h
      | outOfFuel => simp [hks] at h
      | returned r2 =>
        obtain ⟨d3, ks3⟩ := r2
        simp only [hks, Outcome.returned.injEq, Prod.mk.injEq] at h
        rw [← h.2, List.length_cons, ih d2 d3 ks3 hks]

theorem addToKeystream_isDeck (fuel : Nat) (d : Deck) (m : GoString) (decrypt : Bool)
    (hd : IsDeck d) :
    addToKeystream fuel d m decrypt ≠ .panicked ∧
    ∀ d1 s e, addToKeystream fuel d m decrypt = .returned (d1, s, e) → IsDeck d1 := by
  rcases upper_or_firstInvalid m with hm | ⟨c, hc⟩
  · rw [addToKeystream_valid fuel d m decrypt hm]
    obtain ⟨hnp, hret⟩ := keystream_isDeck fuel m.length d hd
    cases hks : keystream fuel m.length d with
    | panicked => exact absurd hks hnp
    | outOfFuel => simp
    | returned r =>
      obtain ⟨d2, ks⟩ := r
      refine ⟨by simp, ?_⟩
      intro d1 s e h
      simp only [Outcome.returned.injEq, Prod.mk.injEq] at h
      rw [← h.1]
      exact (hret d2 ks hks).1
  · obtain ⟨hcn, pre, post, rfl, hpre⟩ := firstInvalid_some m c hc
    rw [addToKeystream_invalid fuel d pre c post decrypt hpre hcn]
    obtain ⟨hnp, hret⟩ := keystream_isDeck fuel pre.length d hd
    cases hks : keystream fuel pre.length d with
    | panicked => exact absurd hks hnp
    | outOfFuel => simp
    | returned r =>
      obtain ⟨d2, ks⟩ := r
      refine ⟨by simp, ?_⟩
      intro d1 s e h
      simp only [Outcome.returned.injEq, Prod.mk.injEq] at h
      rw [← h.1]
      exact (hret d2 ks hks).1

theorem exists_returned (o : Outcome (Deck × GoString × Option InvalidCharacterError))
    (s : GoString) (e : Option InvalidCharacterError) (h : returnedValues o = some (s, e)) :
    ∃ d1, o = .returned (d1, s, e) := by
  cases o with
  | panicked => simp [returnedValues] at h
  | outOfFuel => simp [returnedValues] at h
  | returned r =>
    obtain ⟨d1, s1, e1⟩ := r
    simp only [returnedValues, Option.some.injEq, Prod.mk.injEq] at h
    exact ⟨d1, by rw [h.1, h.2]⟩

theorem addToKeystream_mono_le (fuel fuel1 : Nat) (d : Deck) (m : GoString) (decrypt : Bool)
    (r : Deck × GoString × Option InvalidCharacterError) (hle : fuel ≤ fuel1)
    (h : addToKeystream fuel d m decrypt = .returned r) :
    addToKeystream fuel1 d m decrypt = .returned r := by
  rcases upper_or_firstInvalid m with hm | ⟨c, hc⟩
  · rw [addToKeystream_valid fuel d m decrypt hm] at h
    rw [addToKeystream_valid fuel1 d m decrypt hm]
    cases hks : keystream fuel m.length d with
    | panicked => simp [hks] at h
    | outOfFuel => simp [hks] at h
    | returned r2 =>
      rw [keystream_mono_le fuel fuel1 _ d r2 hle hks]
      rw [hks] at h
      exact h
  · obtain ⟨hcn, pre, post, rfl, hpre⟩ := firstInvalid_some m c hc
    rw [addToKeystream_invalid fuel d pre c post decrypt hpre hcn] at h
    rw [addToKeystream_invalid fuel1 d pre c post decrypt hpre hcn]
    cases hks : keystream fuel pre.length d with
    | panicked => simp [hks] at h
    | outOfFuel => simp [hks] at h
    | returned r2 =>
      rw [keystream_mono_le fuel fuel1 _ d r2 hle hks]
      rw [hks] at h
      exact h

theorem Encrypt_mono_le (fuel fuel1 : Nat) (d : Deck) (p : GoString)
    (r : Deck × GoString × Option InvalidCharacterError) (hle : fuel ≤ fuel1)
    (h : Encrypt fuel d p = .returned r) : Encrypt fuel1 d p = .returned r := by
  unfold Encrypt at h ⊢
  exact addToKeystream_mono_le fuel fuel1 d _ false r hle h

theorem Decrypt_mono_le (fuel fuel1 : Nat) (d : Deck) (c : GoString)
    (r : Deck × GoString × Option InvalidCharacterError) (hle : fuel ≤ fuel1)
    (h : Decrypt fuel d c = .returned r) : Decrypt fuel1 d c = .returned r := by
  unfold Decrypt at h ⊢
  exact addToKeystream_mono_le fuel fuel1 d _ true r hle h

theorem newDeck_isDeck (p : GoString) (d : Deck) (e : Option InvalidCharacterError)
    (h : NewDeck p = some (some d, e)) : IsDeck d := by
  unfold NewDeck at h
  rcases upper_or_firstInvalid p with hp | ⟨c, hc⟩
  · obtain ⟨d1, h1, hd1⟩ := newDeckLoop_valid p freshDeck freshDeck_isDeck hp
    rw [h1] at h
    simp only [Option.some.injEq, Prod.mk.injEq] at h
    rw [← h.1]; exact hd1
  · obtain ⟨hcn, pre, post, rfl, hpre⟩ := firstInvalid_some p c hc
    rw [newDeckLoop_invalid pre c post freshDeck freshDeck_isDeck hpre hcn] at h
    simp at h

theorem isDeck_count (d : Deck) (h : IsDeck d) (v : Nat) (h1 : 1 ≤ v) (h2 : v ≤ 54) :
    d.count v = 1 :=
  List.count_eq_one_of_mem h.nodup ((h.mem_iff v).mpr ⟨h1, h2⟩)

theorem addToKeystream_valid_returned (fuel : Nat) (d d1 : Deck) (m s : GoString)
    (decrypt : Bool) (e : Option InvalidCharacterError) (hm : Upper m)
    (h : addToKeystream fuel d m decrypt = .returned (d1, s, e)) :
    ∃ ks, keystream fuel m.length d = .returned (d1, ks) ∧
      s = spaced 0 (List.zipWith (keyedChar decrypt) m ks) ∧ e = none := by
  rw [addToKeystream_valid fuel d m decrypt hm] at h
  cases hks : keystream fuel m.length d with
  | panicked => rw [hks] at h; cases h
  | outOfFuel => rw [hks] at h; cases h
  | returned r =>
    obtain ⟨d2, ks⟩ := r
    rw [hks] at h
    simp only [Outcome.returned.injEq, Prod.mk.injEq] at h
    obtain ⟨rfl, rfl, rfl⟩ := h
    exact ⟨ks, rfl, rfl, rfl⟩

theorem addToKeystream_invalid_returned (fuel : Nat) (d d1 : Deck) (pre : GoString) (c : Char)
    (post s : GoString) (decrypt : Bool) (e : Option InvalidCharacterError) (hpre : Upper pre)
    (hc : ¬ ('A' ≤ c ∧ c ≤ 'Z'))
    (h : addToKeystream fuel d (pre ++ c :: post) decrypt = .returned (d1, s, e)) :
    ∃ ks, keystream fuel pre.length d = .returned (d1, ks) ∧
      s = [] ∧ e = some (invalidCharacter c) := by
  rw [addToKeystream_invalid fuel d pre c post decrypt hpre hc] at h
  cases hks : keystream fuel pre.length d with
  | panicked => rw [hks] at h; cases h
  | outOfFuel => rw [hks] at h; cases h
  | returned r =>
    obtain ⟨d2, ks⟩ := r
    rw [hks] at h
    simp only [Outcome.returned.injEq, Prod.mk.injEq] at h
    obtain ⟨rfl, rfl, rfl⟩ := h
    exact ⟨ks, rfl, rfl, rfl⟩

/-! ## The claims -/

set_option maxRecDepth 1000000 in
/-- C2 (known vectors). With any recursion budget of at least 2, `NewDeck("")`
then `Encrypt("AAAAAAAAAA")` returns `EXKYI ZSGEH`, `NewDeck("F")` then
`Encrypt("AAAAAAAAAAAAAAA")` returns `XYIUQ BMHKK JBEGY`, and
`NewDeck("CRYPTONOMICON")` then `Encrypt("SOLITAIRE")` returns `KIRAK SFJAN`,
each with a nil error. -/
theorem known_vectors :
    (∃ d d1, NewDeck "".toList = some (some d, none) ∧ ∀ fuel, 2 ≤ fuel →
      Encrypt fuel d "AAAAAAAAAA".toList = .returned (d1, "EXKYI ZSGEH".toList, none)) ∧
    (∃ d d1, NewDeck "F".toList = some (some d, none) ∧ ∀ fuel, 2 ≤ fuel →
      Encrypt fuel d "AAAAAAAAAAAAAAA".toList =
        .returned (d1, "XYIUQ BMHKK JBEGY".toList, none)) ∧
    (∃ d d1, NewDeck "CRYPTONOMICON".toList = some (some d, none) ∧ ∀ fuel, 2 ≤ fuel →
      Encrypt fuel d "SOLITAIRE".toList = .returned (d1, "KIRAK SFJAN".toList, none)) := by
  refine ⟨?_, ?_, ?_⟩
  · have hN : NewDeck "".toList = some (some (deckOf "".toList), none) := by decide
    obtain ⟨d1, h1⟩ := exists_returned (Encrypt 2 (deckOf "".toList) "AAAAAAAAAA".toList)
      "EXKYI ZSGEH".toList none (by decide)
    exact ⟨_, d1, hN, fun fuel hf => Encrypt_mono_le 2 fuel _ _ _ hf h1⟩
  · have hN : NewDeck "F".toList = some (some (deckOf "F".toList), none) := by decide
    obtain ⟨d1, h1⟩ := exists_returned (Encrypt 2 (deckOf "F".toList) "AAAAAAAAAAAAAAA".toList)
      "XYIUQ BMHKK JBEGY".toList none (by decide)
    exact ⟨_, d1, hN, fun fuel hf => Encrypt_mono_le 2 fuel _ _ _ hf h1⟩
  · have hN : NewDeck "CRYPTONOMICON".toList =
        some (some (deckOf "CRYPTONOMICON".toList), none) := by decide
    obtain ⟨d1, h1⟩ := exists_returned
      (Encrypt 2 (deckOf "CRYPTONOMICON".toList) "SOLITAIRE".toList)
      "KIRAK SFJAN".toList none (by decide)
    exact ⟨_, d1, hN, fun fuel hf => Encrypt_mono_le 2 fuel _ _ _ hf h1⟩

/-- C3 (permutation invariant). The deck `NewDeck` builds from the empty
passphrase is a rearrangement of `1..54`; `moveJokers`, `tripleCut`,
`countCut(count)` for `count ≤ 53` and `step` return, on a deck that is a
rearrangement of `1..54`, a deck that is one again; so is every deck returned by
`NewDeck` and every deck left behind by `output`, `Encrypt` and `Decrypt`. Such a
deck has 54 cards and holds each of `1..54` exactly once. -/
theorem permutation_invariant :
    (∃ d, NewDeck [] = some (some d, none) ∧ IsDeck d) ∧
    (∀ d, IsDeck d →
      (∃ d1, moveJokers d = some d1 ∧ IsDeck d1) ∧
      (∃ d1, tripleCut d = some d1 ∧ IsDeck d1) ∧
      (∀ count, count ≤ 53 → ∃ d1, countCut d count = some d1 ∧ IsDeck d1) ∧
      (∃ d1, step d = some d1 ∧ IsDeck d1)) ∧
    (∀ passphrase d e, NewDeck passphrase = some (some d, e) → IsDeck d) ∧
    (∀ fuel d d1 k, IsDeck d → output fuel d = .returned (d1, k) → IsDeck d1) ∧
    (∀ fuel d m d1 s e, IsDeck d → Encrypt fuel d m = .returned (d1, s, e) → IsDeck d1) ∧
    (∀ fuel d m d1 s e, IsDeck d → Decrypt fuel d m = .returned (d1, s, e) → IsDeck d1) ∧
    (∀ d, IsDeck d → d.length = 54 ∧ ∀ v, 1 ≤ v → v ≤ 54 → d.count v = 1) := by
  refine ⟨⟨freshDeck, rfl, freshDeck_isDeck⟩, ?_, ?_, ?_, ?_, ?_, ?_⟩
  · intro d hd
    have hA : jokerA ∈ d := (hd.mem_iff _).mpr (by decide)
    have hB : jokerB ∈ d := (hd.mem_iff _).mpr (by decide)
    refine ⟨?_, ?_, ?_, ?_⟩
    · obtain ⟨d1, h1, hp⟩ := moveJokers_perm d hd.length_eq hA hB
      exact ⟨d1, h1, hd.of_perm hp⟩
    · obtain ⟨d1, h1, hp⟩ := tripleCut_perm d hd.length_eq hA hB
      exact ⟨d1, h1, hd.of_perm hp⟩
    · intro count hc
      obtain ⟨d1, h1, hp⟩ := countCut_perm d count hd.length_eq hc
      exact ⟨d1, h1, hd.of_perm hp⟩
    · obtain ⟨d1, h1, hp⟩ := step_perm d hd
      exact ⟨d1, h1, hd.of_perm hp⟩
  · exact newDeck_isDeck
  · intro fuel d d1 k hd h
    exact ((output_isDeck fuel d hd).2 d1 k h).1
  · intro fuel d m d1 s e hd h
    unfold Encrypt at h
    exact (addToKeystream_isDeck fuel d _ false hd).2 d1 s e h
  · intro fuel d m d1 s e hd h
    unfold Decrypt at h
    exact (addToKeystream_isDeck fuel d _ true hd).2 d1 s e h
  · intro d hd
    exact ⟨hd.length_eq, isDeck_count d hd⟩

/-- C6 (joker skip). On a deck that is a rearrangement of `1..54`, `output`
returns the deck `d1` and the value `k` exactly when, for some `n` below the
recursion budget, `d1` is the deck after `n + 1` steps, its candidate card (the
card at the index given by the value of its top card) is not a joker and has
value `k`, and the candidates of the decks after `1, ..., n` steps are all
jokers. The returned value lies in `1..52`, so it is never 53, and when the
candidate after the first step is a joker, `output` on the deck equals `output`
on the stepped deck. -/
theorem output_joker_skip (d : Deck) (hd : IsDeck d) :
    (∀ fuel d1 k, output fuel d = .returned (d1, k) ↔
      ∃ n, n < fuel ∧ stepN (n + 1) d = some d1 ∧
        (∃ c, candidate d1 = some c ∧ isJoker c = false ∧ k = value c) ∧
        ∀ m, m < n → ∃ dm cm, stepN (m + 1) d = some dm ∧ candidate dm = some cm ∧
          isJoker cm = true) ∧
    (∀ fuel d1 k, output fuel d = .returned (d1, k) → 1 ≤ k ∧ k ≤ 52 ∧ k ≠ 53) ∧
    (∀ fuel d1 c, step d = some d1 → candidate d1 = some c → isJoker c = true →
      output (fuel + 1) d = output fuel d1) := by
  refine ⟨fun fuel d1 k => output_returned_iff fuel d d1 k, ?_, ?_⟩
  · intro fuel d1 k h
    obtain ⟨-, h1, h2⟩ := (output_isDeck fuel d hd).2 d1 k h
    exact ⟨h1, h2, by omega⟩
  · intro fuel d1 c hs hc hj
    rw [output_succ, hs]
    simp only [hc, hj, if_true]

set_option maxRecDepth 1000000 in
/-- C6, at a concrete input: from the deck of the empty passphrase the first
three values are 4, 49 and 10; after the next step the candidate is a joker,
which a recursion budget of 1 cannot skip, and `output` steps once more and
returns 24. -/
theorem output_joker_skip_witness :
    IsDeck thirdDeck ∧
    keystream 1 3 freshDeck = .returned (thirdDeck, [4, 49, 10]) ∧
    step thirdDeck = some fourthDeck ∧ candidate fourthDeck = some jokerB ∧
    output 1 thirdDeck = .outOfFuel ∧
    output 2 thirdDeck = output 1 fourthDeck ∧
    returnedKey (output 1 fourthDeck) = some 24 :=
  ⟨by decide, by decide, by decide, by decide, by decide,
    (output_joker_skip thirdDeck (by decide)).2.2 1 fourthDeck jokerB (by decide) (by decide)
      (by decide),
    by decide⟩

/-- C7 (output grouping). For a message `m` of letters `A..Z` and a deck that is
a rearrangement of `1..54`, `addToKeystream` in either mode never panics, returns
once the `m.length` calls of `output` return, and what it returns is a nil error
and a string `s` that without its spaces is `m.length` letters `A..Z`, whose
spaces are exactly at the positions `5, 11, 17, ...` (one after every fifth
letter), that neither starts nor ends with a space, and whose length is
`n + (n - 1) / 5` (empty for `n = 0`). An `Encrypt` result has a multiple of 5
letters and, when not empty, a length of the form `6 q + 5` with its spaces at
the positions `5, 11, ...`, so all its blocks have 5 letters; a `Decrypt` result
has as many letters as its input, whatever that number is. -/
theorem output_grouping (fuel : Nat) (d : Deck) (m : GoString) (decrypt : Bool)
    (hd : IsDeck d) (hm : Upper m) :
    addToKeystream fuel d m decrypt ≠ .panicked ∧
    ((∃ r, keystream fuel m.length d = .returned r) →
      ∃ d1 s, addToKeystream fuel d m decrypt = .returned (d1, s, none)) ∧
    (∀ d1 s e, addToKeystream fuel d m decrypt = .returned (d1, s, e) →
      e = none ∧ Upper (stripSpaces s) ∧ (stripSpaces s).length = m.length ∧
      s.length = m.length + (m.length - 1) / 5 ∧
      (∀ j c, s[j]? = some c → (c = ' ' ↔ j % 6 = 5)) ∧
      s.head? ≠ some ' ' ∧ s.getLast? ≠ some ' ' ∧ (m = [] → s = [])) ∧
    (∀ d1 s e, Encrypt fuel d m = .returned (d1, s, e) →
      (stripSpaces s).length % 5 = 0 ∧ (s = [] ∨ s.length % 6 = 5) ∧
      (∀ j c, s[j]? = some c → (c = ' ' ↔ j % 6 = 5))) ∧
    (∀ d1 s e, Decrypt fuel d m = .returned (d1, s, e) →
      (stripSpaces s).length = m.length) := by
  -- the shape of a returned string, for any message over `A..Z`
  have shape : ∀ (msg : GoString) (dec : Bool), Upper msg → ∀ d1 s e,
      addToKeystream fuel d msg dec = .returned (d1, s, e) →
      e = none ∧ Upper (stripSpaces s) ∧ (stripSpaces s).length = msg.length ∧
      s.length = msg.length + (msg.length - 1) / 5 ∧
      (∀ j c, s[j]? = some c → (c = ' ' ↔ j % 6 = 5)) := by
    intro msg dec hmsg d1 s e h
    obtain ⟨ks, hks, hs, he⟩ := addToKeystream_valid_returned fuel d d1 msg s dec e hmsg h
    obtain ⟨-, hlen, hall⟩ := (keystream_isDeck fuel _ d hd).2 d1 ks hks
    have hns := zipWith_keyedChar_no_space dec msg ks
    have hzl : (List.zipWith (keyedChar dec) msg ks).length = msg.length := by
      rw [List.length_zipWith, hlen, Nat.min_self]
    have hstrip : stripSpaces s = List.zipWith (keyedChar dec) msg ks := by
      rw [hs]; exact stripSpaces_spaced 0 _ hns
    refine ⟨he, ?_, ?_, ?_, ?_⟩
    · rw [hstrip]
      exact zipWith_upper _ _ _
        (fun x hx k hk => keyedChar_upper dec x k (hmsg x hx) (hall k hk).2)
    · rw [hstrip, hzl]
    · rw [hs, spaced_length, hzl]
    · intro j c hj
      rw [hs] at hj
      exact spaced_positions _ hns j c hj
  refine ⟨(addToKeystream_isDeck fuel d m decrypt hd).1, ?_, ?_, ?_, ?_⟩
  · rintro ⟨r, hr⟩
    rw [addToKeystream_valid fuel d m decrypt hm, hr]
    exact ⟨r.1, _, rfl⟩
  · intro d1 s e h
    obtain ⟨h1, h2, h3, h4, h5⟩ := shape m decrypt hm d1 s e h
    refine ⟨h1, h2, h3, h4, h5, ?_, ?_, ?_⟩
    · rw [List.head?_eq_getElem?]
      intro h0
      have := (h5 0 ' ' h0).mp rfl
      omega
    · rw [List.getLast?_eq_getElem?]
      intro h0
      have := (h5 _ ' ' h0).mp rfl
      omega
    · intro hnil
      subst hnil
      simp only [List.length_nil] at h4
      exact List.eq_nil_of_length_eq_zero h4
  · intro d1 s e h
    rw [Encrypt_upper fuel d m hm] at h
    obtain ⟨-, -, h3, h4, h5⟩ := shape (padX m) false (padX_upper m hm) d1 s e h
    have hp := padX_length m
    refine ⟨by rw [h3]; exact hp.1, ?_, h5⟩
    by_cases h0 : (padX m).length = 0
    · left
      rw [h0] at h4
      exact List.eq_nil_of_length_eq_zero h4
    · right
      omega
  · intro d1 s e h
    unfold Decrypt at h
    exact (shape m true hm d1 s e h).2.2.1

set_option maxRecDepth 1000000 in
/-- C7, at a concrete input: on the deck of the empty passphrase, decrypting the
single letter `A` returns the single letter `W`, a block shorter than 5, and
encrypting it returns the full block `EUHVF`. -/
theorem output_grouping_witness :
    IsDeck freshDeck ∧ Upper "A".toList ∧
    returnedValues (Decrypt 1 freshDeck "A".toList) = some ("W".toList, none) ∧
    returnedValues (Encrypt 2 freshDeck "A".toList) = some ("EUHVF".toList, none) ∧
    ∀ d1 s e, Decrypt 1 freshDeck "A".toList = .returned (d1, s, e) →
      (stripSpaces s).length = "A".toList.length :=
  ⟨freshDeck_isDeck, by decide, by decide, by decide,
    (output_grouping 1 freshDeck "A".toList true freshDeck_isDeck (by decide)).2.2.2.2⟩

/-- C8 (key schedule). `NewDeck("")` returns the deck whose index `i` holds the
card `i + 1`, for `i = 0..53`. For a passphrase `p` over `A..Z` and a letter `c`,
`NewDeck(p)` returns a deck `d`, and `NewDeck` of `p` followed by `c` returns the
deck `d` after one `step` and then `countCut(1 + k)`, where `k` is the zero-based
alphabet index of `c`, so that the count lies in `1..26`. -/
theorem key_schedule (p : GoString) (c : Char) (hp : Upper p) (hc : 'A' ≤ c ∧ c ≤ 'Z') :
    NewDeck [] = some (some freshDeck, none) ∧
    freshDeck.length = 54 ∧ (∀ i, i < 54 → freshDeck[i]? = some (i + 1)) ∧
    (∃ d d1 d2, NewDeck p = some (some d, none) ∧ step d = some d1 ∧
      countCut d1 (1 + (c.toNat - 'A'.toNat)) = some d2 ∧
      NewDeck (p ++ [c]) = some (some d2, none)) ∧
    1 ≤ 1 + (c.toNat - 'A'.toNat) ∧ 1 + (c.toNat - 'A'.toNat) ≤ 26 ∧
    ((c.toNat - 'A'.toNat : Nat) : Int) = alphaIndex c := by
  have hcn := (upper_iff c).mp hc
  refine ⟨rfl, by decide, ?_, ?_, ?_, ?_, ?_⟩
  · intro i hi
    unfold freshDeck
    rw [List.getElem?_map, List.getElem?_range hi]
    rfl
  · obtain ⟨d, h1, hd, h2⟩ := newDeckLoop_snoc p c freshDeck freshDeck_isDeck hp
    obtain ⟨d1, d2, hs, hcc, -⟩ := newDeckLoop_cons_valid c d hd hc
    have he : 1 + (c.toNat - 'A'.toNat) = c.toNat + 1 - 65 := by rw [toNat_A]; omega
    refine ⟨d, d1, d2, h1, hs, by rw [he]; exact hcc, ?_⟩
    unfold NewDeck
    rw [h2, newDeckLoop_cons_eq c [] d d1 d2 hc hs hcc]
    rfl
  · omega
  · rw [toNat_A]; omega
  · rw [toNat_A]; unfold alphaIndex; omega

set_option maxRecDepth 1000000 in
/-- C8, at a concrete input: the passphrase `F` followed by the letter `O`. -/
theorem key_schedule_witness :
    Upper "F".toList ∧ ('A' ≤ 'O' ∧ 'O' ≤ 'Z') ∧
    ∃ d d1 d2, NewDeck "F".toList = some (some d, none) ∧ step d = some d1 ∧
      countCut d1 15 = some d2 ∧ NewDeck "FO".toList = some (some d2, none) :=
  ⟨by decide, by decide,
    (key_schedule "F".toList 'O' (by decide) (by decide)).2.2.2.1⟩

/-- C9 (letter combination). For a message `m` of letters `A..Z` and a deck that
is a rearrangement of `1..54`, let `addToKeystream` return the string `s`. Then
the `m.length` successive values `ks` of `output` drawn from the deck all lie in
`1..52`, and the `i`-th letter of `s` (spaces apart) is the letter whose alphabet
index is `(idx(m_i) + k_i) mod 26` when encrypting and `(idx(m_i) - k_i) mod 26`,
with the non-negative modulus, when decrypting. The operand `idx(m_i) + (52 - k_i)`
of the remainder taken when decrypting is never negative, so Go's remainder is
that modulus. -/
theorem letter_combination (fuel : Nat) (d d1 : Deck) (m s : GoString) (decrypt : Bool)
    (e : Option InvalidCharacterError) (hd : IsDeck d) (hm : Upper m)
    (hr : addToKeystream fuel d m decrypt = .returned (d1, s, e)) :
    ∃ ks, keystream fuel m.length d = .returned (d1, ks) ∧ ks.length = m.length ∧
      (∀ k ∈ ks, 1 ≤ k ∧ k ≤ 52) ∧
      ∀ (i : Nat) (c : Char) (k : Nat), m[i]? = some c → ks[i]? = some k →
        (∃ x, (stripSpaces s)[i]? = some x ∧ ('A' ≤ x ∧ x ≤ 'Z') ∧
          x = letter (if decrypt then alphaIndex c - k else alphaIndex c + k) ∧
          alphaIndex x =
            (if decrypt then (alphaIndex c - k) % 26 else (alphaIndex c + k) % 26)) ∧
        0 ≤ alphaIndex c + (52 - (k : Int)) ∧
        Int.tmod (alphaIndex c + (52 - (k : Int))) 26 = (alphaIndex c - k) % 26 ∧
        Int.tmod (alphaIndex c + (k : Int)) 26 = (alphaIndex c + k) % 26 := by
  obtain ⟨ks, hks, hs, -⟩ := addToKeystream_valid_returned fuel d d1 m s decrypt e hm hr
  obtain ⟨-, hlen, hall⟩ := (keystream_isDeck fuel _ d hd).2 d1 ks hks
  refine ⟨ks, hks, hlen, hall, ?_⟩
  intro i c k hc hk
  have hcm : c ∈ m := by
    obtain ⟨hi, rfl⟩ := List.getElem?_eq_some.mp hc
    exact List.getElem_mem _
  have hkm : k ∈ ks := by
    obtain ⟨hi, rfl⟩ := List.getElem?_eq_some.mp hk
    exact List.getElem_mem _
  have hcu := hm c hcm
  have hcn := (upper_iff c).mp hcu
  have hkb := hall k hkm
  have hstrip : stripSpaces s = List.zipWith (keyedChar decrypt) m ks := by
    rw [hs]; exact stripSpaces_spaced 0 _ (zipWith_keyedChar_no_space decrypt m ks)
  have hx : (stripSpaces s)[i]? = some (keyedChar decrypt c k) := by
    rw [hstrip, List.getElem?_zipWith_eq_some]
    exact ⟨c, k, hc, hk, rfl⟩
  have hkey : keyedChar decrypt c k =
      letter (if decrypt then alphaIndex c - k else alphaIndex c + k) := by
    cases decrypt with
    | false => simpa using keyedChar_encrypt c k hcu
    | true => simpa using (keyedChar_decrypt c k hcu hkb.2).2
  have hidx : 0 ≤ alphaIndex c := by unfold alphaIndex; omega
  refine ⟨⟨_, hx, keyedChar_upper decrypt c k hcu hkb.2, hkey, ?_⟩, ?_, ?_, ?_⟩
  · rw [hkey, alphaIndex_letter]
    cases decrypt <;> simp
  · omega
  · rw [Int.tmod_eq_emod (by omega) (by omega)]
    omega
  · rw [Int.tmod_eq_emod (by omega) (by omega)]

set_option maxRecDepth 1000000 in
/-- C9, at a concrete input: decrypting `A` on the deck of the empty passphrase
draws the value 4 and returns `W`, the letter of index `(0 - 4) mod 26 = 22`. -/
theorem letter_combination_witness :
    IsDeck freshDeck ∧ Upper "A".toList ∧
    ∃ d1, addToKeystream 1 freshDeck "A".toList true = .returned (d1, "W".toList, none) ∧
      keystream 1 1 freshDeck = .returned (d1, [4]) ∧ letter (alphaIndex 'A' - 4) = 'W' := by
  refine ⟨freshDeck_isDeck, by decide, ?_⟩
  obtain ⟨d1, h1⟩ := exists_returned (addToKeystream 1 freshDeck "A".toList true) "W".toList
    none (by decide)
  obtain ⟨ks, h2, h3, -, -⟩ := letter_combination 1 freshDeck d1 "A".toList "W".toList true
    none freshDeck_isDeck (by decide) h1
  have h4 : (match keystream 1 1 freshDeck with
      | .returned (_, ks) => decide (ks = [4]) | _ => false) = true := by decide
  have h2b : keystream 1 1 freshDeck = .returned (d1, ks) := h2
  rw [h2b] at h4
  simp only [decide_eq_true_eq] at h4
  rw [h4] at h2b
  exact ⟨d1, h1, h2b, by decide⟩

/-- C10 (encrypt padding). For every deck and every plaintext `p` over `A..Z`,
`Encrypt(p)` is the encrypt-mode `addToKeystream` on `p` followed by
`(5 - len(p) % 5) % 5` letters `X`: at most 4, and the fewest that make the
length a multiple of 5. So `Encrypt(p)` equals `Encrypt` of the padded `p`, a
plaintext whose length is a multiple of 5 is not padded, and `Decrypt` is the
decrypt-mode `addToKeystream` on its input as it is: what it returns has as many
letters as the input. -/
theorem encrypt_padding (fuel : Nat) (d : Deck) (p : GoString) (hp : Upper p) :
    Encrypt fuel d p =
      addToKeystream fuel d (p ++ List.replicate ((5 - p.length % 5) % 5) 'X') false ∧
    (5 - p.length % 5) % 5 ≤ 4 ∧
    (p.length + (5 - p.length % 5) % 5) % 5 = 0 ∧
    (∀ j, (p.length + j) % 5 = 0 → (5 - p.length % 5) % 5 ≤ j) ∧
    Encrypt fuel d p = Encrypt fuel d (padX p) ∧
    (p.length % 5 = 0 → Encrypt fuel d p = addToKeystream fuel d p false) ∧
    Decrypt fuel d p = addToKeystream fuel d p true ∧
    (∀ d1 s e, Decrypt fuel d p = .returned (d1, s, e) →
      e = none ∧ (stripSpaces s).length = p.length) := by
  have h1 := Encrypt_upper fuel d p hp
  have hpad : padX (padX p) = padX p := padX_of_length (padX p) (padX_length p).1
  refine ⟨h1, by omega, by omega, fun j hj => by omega, ?_, ?_, rfl, ?_⟩
  · rw [h1, Encrypt_upper fuel d (padX p) (padX_upper p hp), hpad]
  · intro h5
    rw [h1, padX_of_length p h5]
  · intro d1 s e h
    unfold Decrypt at h
    obtain ⟨ks, hks, hs, he⟩ := addToKeystream_valid_returned fuel d d1 p s true e hp h
    have hlen := keystream_length fuel _ d d1 ks hks
    refine ⟨he, ?_⟩
    rw [hs, stripSpaces_spaced 0 _ (zipWith_keyedChar_no_space true p ks),
      List.length_zipWith, hlen, Nat.min_self]

/-- C10, at a concrete input: the plaintext `HI` is encrypted as `HIXXX` is. -/
theorem encrypt_padding_witness :
    Upper "HI".toList ∧ padX "HI".toList = "HIXXX".toList ∧
    Encrypt 2 freshDeck "HI".toList = Encrypt 2 freshDeck (padX "HI".toList) :=
  ⟨by decide, by decide, (encrypt_padding 2 freshDeck "HI".toList (by decide)).2.2.2.2.1⟩

/-! ## More on slices, `find` and the cuts -/

theorem slice_length (d : Deck) (a b : Nat) (hb : b ≤ d.length) :
    (slice d a b).length = b - a := by
  simp only [slice, List.length_take, List.length_drop]
  omega

theorem slice_getElem? (d : Deck) (a b i : Nat) (hi : i < b - a) :
    (slice d a b)[i]? = d[a + i]? := by
  simp only [slice]
  rw [List.getElem?_take_of_lt hi, List.getElem?_drop]

theorem find_of_nodup (d : Deck) (t : Nat) (i : Nat) (hn : d.Nodup) (h : d[i]? = some t) :
    find d t = some i := by
  obtain ⟨hi, hti⟩ := List.getElem?_eq_some.mp h
  have hm : t ∈ d := by rw [← hti]; exact List.getElem_mem _
  obtain ⟨j, hj⟩ := find_some_of_mem d t hm
  obtain ⟨hjl, htj⟩ := List.getElem?_eq_some.mp (find_spec d t j hj).1
  have : j = i := (List.Nodup.getElem_inj_iff hn).mp (by rw [htj, hti])
  rw [hj, this]

theorem find_unique (d : Deck) (t : Nat) (hd : IsDeck d) (h1 : 1 ≤ t) (h2 : t ≤ 54) :
    ∃ i, find d t = some i ∧ i < 54 ∧ d[i]? = some t ∧ ∀ j, d[j]? = some t → j = i := by
  obtain ⟨i, hi⟩ := find_some_of_mem d t ((hd.mem_iff t).mpr ⟨h1, h2⟩)
  refine ⟨i, hi, by have := find_lt d t i hi; rw [hd.length_eq] at this; exact this,
    (find_spec d t i hi).1, ?_⟩
  intro j hj
  have := find_of_nodup d t j hd.nodup hj
  rw [hi] at this
  exact (Option.some.inj this).symm

theorem three_blocks (X Y Z : List card) :
    (X ++ Y ++ Z).take X.length = X ∧
    slice (X ++ Y ++ Z) X.length (X.length + Y.length) = Y ∧
    (X ++ Y ++ Z).drop (X.length + Y.length) = Z := by
  refine ⟨?_, ?_, ?_⟩
  · rw [List.append_assoc, List.take_left']
    rfl
  · rw [slice, List.append_assoc, List.drop_left', Nat.add_sub_cancel_left, List.take_left']
    · rfl
    · rfl
  · rw [List.drop_left']
    simp

theorem countCut_53 (d : Deck) (h : d.length = 54) : countCut d 53 = some d := by
  rw [countCut_eq d 53 h (by omega)]
  have : slice d 53 53 = [] := by simp [slice]
  rw [this, List.nil_append, List.take_append_drop]

/-! ## `moveDown`, one move at a time -/

theorem swap_effect (d : Deck) (pos : Nat) (x y : card)
    (hx : d[pos]? = some x) (hy : d[pos + 1]? = some y) :
    ((d.set pos y).set (pos + 1) x)[pos + 1]? = some x ∧
    ((d.set pos y).set (pos + 1) x).eraseIdx (pos + 1) = d.eraseIdx pos := by
  obtain ⟨h1, h2⟩ := swap_eq d pos x y hx hy
  have hT : (d.take pos).length = pos :=
    List.length_take_of_le (by have := (List.getElem?_eq_some.mp hx).1; omega)
  rw [h2]
  have e1 : d.eraseIdx pos = d.take pos ++ y :: d.drop (pos + 2) := by
    conv => lhs; rw [h1]
    rw [List.eraseIdx_append_of_length_le (by omega), hT, Nat.sub_self]
    rfl
  rw [e1]
  constructor
  · rw [List.getElem?_append_right (by omega), hT]
    simp
  · rw [List.eraseIdx_append_of_length_le (by omega), hT]
    simp

theorem wrap_effect (d : Deck) (h : d.length = 54) :
    (d.take 1 ++ d.drop 53 ++ slice d 1 53)[1]? = d[53]? ∧
    (d.take 1 ++ d.drop 53 ++ slice d 1 53).eraseIdx 1 = d.eraseIdx 53 := by
  have hT : (d.take 1).length = 1 := List.length_take_of_le (by omega)
  have hD : d.drop 53 = [d[53]] := by
    rw [List.drop_eq_getElem_cons (by omega)]
    have : d.drop (53 + 1) = [] := List.drop_of_length_le (by omega)
    rw [this]
  have e1 : d.eraseIdx 53 = d.take 1 ++ slice d 1 53 := by
    rw [List.eraseIdx_eq_take_drop_succ, List.drop_of_length_le (by omega), List.append_nil,
      show (53 : Nat) = 1 + 52 by rfl, List.take_add, slice]
  rw [e1, List.append_assoc]
  constructor
  · rw [List.getElem?_append_right (by omega), hT, hD]
    simp [List.getElem?_eq_getElem (show 53 < d.length by omega)]
  · rw [List.eraseIdx_append_of_length_le (by omega), hT, hD]
    simp

theorem moveDown_one_move (d : Deck) (pos off : Nat) (h : d.length = 54) (hp : pos ≤ 53) :
    ∃ d1, moveDown d pos (off + 1) = moveDown d1 (pos % 53 + 1) off ∧ d1.length = 54 ∧
      d1[pos % 53 + 1]? = d[pos]? ∧ d1.eraseIdx (pos % 53 + 1) = d.eraseIdx pos := by
  by_cases hw : pos + 1 = d.length
  · have hp53 : pos = 53 := by omega
    subst hp53
    refine ⟨d.take 1 ++ d.drop 53 ++ slice d 1 53, ?_, ?_, (wrap_effect d h).1,
      (wrap_effect d h).2⟩
    · rw [moveDown, if_pos hw, wrap_eq d h]
    · rw [(wrap_perm d).length_eq, h]
  · have hx : d[pos]? = some d[pos] := List.getElem?_eq_getElem (by omega)
    have hy : d[pos + 1]? = some d[pos + 1] := List.getElem?_eq_getElem (by omega)
    obtain ⟨h1, h2⟩ := swap_effect d pos _ _ hx hy
    have hlen := (swap_perm d pos _ _ hx hy).length_eq
    have hm : moveDown d pos (off + 1) =
        moveDown ((d.set pos d[pos + 1]).set (pos + 1) d[pos]) (pos + 1) off := by
      rw [moveDown, if_neg hw, hx, hy]
    generalize (d.set pos d[pos + 1]).set (pos + 1) d[pos] = d1 at h1 h2 hlen hm
    have e : pos % 53 + 1 = pos + 1 := by omega
    refine ⟨d1, ?_, ?_, ?_, ?_⟩
    · rw [e]; exact hm
    · rw [hlen, h]
    · rw [e, h1, hx]
    · rw [e, h2]

theorem moveDown_track (off : Nat) (d : Deck) (pos : Nat) (h : d.length = 54) (hp : pos ≤ 53) :
    ∃ d1, moveDown d pos (off + 1) = some d1 ∧ d1.length = 54 ∧
      d1[(pos + off) % 53 + 1]? = d[pos]? ∧
      d1.eraseIdx ((pos + off) % 53 + 1) = d.eraseIdx pos := by
  induction off generalizing d pos with
  | zero =>
    obtain ⟨d1, h1, h2, h3, h4⟩ := moveDown_one_move d pos 0 h hp
    exact ⟨d1, by rw [h1, moveDown], h2, h3, h4⟩
  | succ off ih =>
    obtain ⟨d1, h1, h2, h3, h4⟩ := moveDown_one_move d pos (off + 1) h hp
    obtain ⟨d2, k1, k2, k3, k4⟩ := ih d1 (pos % 53 + 1) h2 (by omega)
    have e : (pos % 53 + 1 + off) % 53 + 1 = (pos + (off + 1)) % 53 + 1 := by omega
    rw [e] at k3 k4
    exact ⟨d2, by rw [h1, k1], k2, k3.trans h3, k4.trans h4⟩

/-! ## One `step`, call by call -/

theorem findsAt_of_isDeck (d : Deck) (t : Nat) (hd : IsDeck d) (h1 : 1 ≤ t) (h2 : t ≤ 54) :
    ∃ i, FindsAt d t i :=
  find_unique d t hd h1 h2

theorem tripleCut_reorder (d : Deck) (a b : Nat) (ha : find d jokerA = some a)
    (hb : find d jokerB = some b) :
    tripleCut d = reorder d [max a b + 1, 54, min a b, max a b + 1, 0, min a b] := by
  have e1 : (if a > b then b else a) = min a b := by
    split <;> omega
  have e2 : (if a > b then a else b) = max a b := by
    split <;> omega
  simp only [tripleCut, ha, hb, e1, e2]

/-! ## A keystream and its first values -/

theorem keystream_prefix (fuel a b : Nat) (d d2 : Deck) (ks : List Nat)
    (h : keystream fuel (a + b) d = .returned (d2, ks)) :
    ∃ d1, keystream fuel a d = .returned (d1, ks.take a) ∧
      keystream fuel b d1 = .returned (d2, ks.drop a) := by
  induction a generalizing d ks with
  | zero =>
    rw [Nat.zero_add] at h
    exact ⟨d, rfl, by simpa using h⟩
  | succ a ih =>
    rw [show a + 1 + b = (a + b) + 1 by omega] at h
    cases ho : output fuel d with
    | panicked => simp [keystream, ho] at h
    | outOfFuel => simp [keystream, ho] at h
    | returned r =>
      obtain ⟨e, k⟩ := r
      rw [keystream_succ_returned fuel (a + b) d e k ho] at h
      cases hks : keystream fuel (a + b) e with
      | panicked => rw [hks] at h; cases h
      | outOfFuel => rw [hks] at h; cases h
      | returned r2 =>
        obtain ⟨e2, ks2⟩ := r2
        rw [hks] at h
        simp only [Outcome.returned.injEq, Prod.mk.injEq] at h
        obtain ⟨rfl, rfl⟩ := h
        obtain ⟨d1, h1, h2⟩ := ih e ks2 hks
        refine ⟨d1, ?_, by simpa using h2⟩
        rw [keystream_succ_returned fuel a d e k ho, h1]
        rfl

theorem spaced_six (x0 x1 x2 x3 x4 x5 : Char) (rest : List Char) :
    spaced 0 (x0 :: x1 :: x2 :: x3 :: x4 :: x5 :: rest) =
      [x0, x1, x2, x3, x4] ++ ' ' :: (x5 :: spaced 6 rest) := by
  simp [spaced]

theorem six_of_length (xs : List Char) (h : 6 ≤ xs.length) :
    ∃ x0 x1 x2 x3 x4 x5 rest, xs = x0 :: x1 :: x2 :: x3 :: x4 :: x5 :: rest := by
  match xs, h with
  | x0 :: x1 :: x2 :: x3 :: x4 :: x5 :: rest, _ => exact ⟨x0, x1, x2, x3, x4, x5, rest, rfl⟩

/-! ## Steps, outputs and decks that come back -/

theorem stepN_add (a b : Nat) (d : Deck) :
    stepN (a + b) d =
      match stepN a d with
      | none => none
      | some d1 => stepN b d1 := by
  induction a generalizing d with
  | zero => rw [Nat.zero_add]; rfl
  | succ a ih =>
    rw [show a + 1 + b = (a + b) + 1 by omega, stepN, stepN]
    cases step d with
    | none => rfl
    | some d1 => exact ih d1

theorem stepN_isDeck (n : Nat) (d : Deck) (hd : IsDeck d) :
    ∃ e, stepN n d = some e ∧ IsDeck e := by
  induction n generalizing d with
  | zero => exact ⟨d, rfl, hd⟩
  | succ n ih =>
    obtain ⟨d1, hs, hp⟩ := step_perm d hd
    obtain ⟨e, he, hde⟩ := ih d1 (hd.of_perm hp)
    exact ⟨e, by rw [stepN, hs]; exact he, hde⟩

theorem keystream_cons (fuel n : Nat) (d d1 d2 : Deck) (k : Nat) (ks : List Nat)
    (ho : output fuel d = .returned (d1, k)) (hk : keystream fuel n d1 = .returned (d2, ks)) :
    keystream fuel (n + 1) d = .returned (d2, k :: ks) := by
  rw [keystream_succ_returned fuel n d d1 k ho, hk]

theorem keystream_uncons (fuel n : Nat) (d d2 : Deck) (ks : List Nat)
    (h : keystream fuel (n + 1) d = .returned (d2, ks)) :
    ∃ d1 k ks1, output fuel d = .returned (d1, k) ∧
      keystream fuel n d1 = .returned (d2, ks1) ∧ ks = k :: ks1 := by
  cases ho : output fuel d with
  | panicked => simp [keystream, ho] at h
  | outOfFuel => simp [keystream, ho] at h
  | returned r =>
    obtain ⟨d1, k⟩ := r
    rw [keystream_succ_returned fuel n d d1 k ho] at h
    cases hks : keystream fuel n d1 with
    | panicked => rw [hks] at h; cases h
    | outOfFuel => rw [hks] at h; cases h
    | returned r2 =>
      obtain ⟨e2, ks2⟩ := r2
      rw [hks] at h
      simp only [Outcome.returned.injEq, Prod.mk.injEq] at h
      obtain ⟨rfl, rfl⟩ := h
      exact ⟨d1, k, ks2, rfl, hks, rfl⟩

theorem keystream_steps (fuel n : Nat) (d d2 : Deck) (ks : List Nat)
    (h : keystream fuel n d = .returned (d2, ks)) :
    ∃ m, n ≤ m ∧ stepN m d = some d2 := by
  induction n generalizing d ks with
  | zero =>
    simp only [keystream, Outcome.returned.injEq, Prod.mk.injEq] at h
    exact ⟨0, Nat.le_refl 0, by rw [← h.1]; rfl⟩
  | succ n ih =>
    obtain ⟨d1, k, ks1, ho, hk, -⟩ := keystream_uncons fuel n d d2 ks h
    obtain ⟨i, -, hi, -, -⟩ := (output_returned_iff fuel d d1 k).mp ho
    obtain ⟨m, hm, hm2⟩ := ih d1 ks1 hk
    refine ⟨(i + 1) + m, by omega, ?_⟩
    rw [stepN_add, hi]
    exact hm2

/-- From a deck that `r ≥ 1` steps take to a deck whose candidate is not a joker,
some number `j ≥ 1` of calls of `output` return and leave that deck. -/
theorem keystream_reaches (r : Nat) (d e : Deck) (c : Nat) (hd : IsDeck d)
    (hs : stepN (r + 1) d = some e) (hc : candidate e = some c) (hj : isJoker c = false) :
    ∃ j fuel ks, 1 ≤ j ∧ keystream fuel j d = .returned (e, ks) := by
  induction r generalizing d with
  | zero =>
    rw [stepN_one] at hs
    have ho : output 1 d = .returned (e, value c) := by
      rw [output_succ, hs]
      simp only [hc, hj]
      rfl
    exact ⟨1, 1, [value c], Nat.le_refl 1, keystream_cons 1 0 d e e _ [] ho rfl⟩
  | succ r ih =>
    obtain ⟨d1, hs1, hp⟩ := step_perm d hd
    have hd1 := hd.of_perm hp
    rw [stepN_succ_of_step _ d d1 hs1] at hs
    obtain ⟨j, fuel, ks, hj1, hk⟩ := ih d1 hd1 hs
    obtain ⟨c1, hc1, -, -⟩ := candidate_isDeck d1 hd1
    by_cases hj1c : isJoker c1 = true
    · -- the first call from `d` skips the joker and is the first call from `d1`
      obtain ⟨j0, rfl⟩ : ∃ j0, j = j0 + 1 := ⟨j - 1, by omega⟩
      obtain ⟨d2, k, ks1, ho, hk2, -⟩ := keystream_uncons fuel j0 d1 e ks hk
      have ho2 : output (fuel + 1) d = .returned (d2, k) := by
        rw [output_succ, hs1]
        simp only [hc1, hj1c, if_true]
        exact ho
      exact ⟨j0 + 1, fuel + 1, k :: ks1, by omega,
        keystream_cons (fuel + 1) j0 d d2 e k ks1 ho2
          (keystream_mono_le fuel (fuel + 1) j0 d2 _ (by omega) hk2)⟩
    · -- the first call from `d` returns at `d1`
      have hjf : isJoker c1 = false := by simpa using hj1c
      have ho : output 1 d = .returned (d1, value c1) := by
        rw [output_succ, hs1]
        simp only [hc1, hjf]
        rfl
      exact ⟨j + 1, fuel + 1, value c1 :: ks, by omega,
        keystream_cons (fuel + 1) j d d1 e _ ks
          (output_mono_le 1 (fuel + 1) d _ (by omega) ho)
          (keystream_mono_le fuel (fuel + 1) j d1 _ (by omega) hk)⟩

/-- Some deck that is a rearrangement of `1..54` comes back after a positive
number of steps: the decks are finitely many. -/
theorem exists_periodic_deck :
    ∃ (d : Deck) (p : Nat), IsDeck d ∧ stepN (p + 1) d = some d := by
  have hfin : {l : List Nat | l ∈ (List.range' 1 54).permutations}.Finite :=
    List.finite_toSet _
  have hmem : ∀ n : Nat, (stepN n freshDeck).getD freshDeck ∈
      {l : List Nat | l ∈ (List.range' 1 54).permutations} := by
    intro n
    obtain ⟨e, he, hde⟩ := stepN_isDeck n freshDeck freshDeck_isDeck
    rw [he]
    exact List.mem_permutations.mpr hde
  obtain ⟨a, b, hab, heq⟩ := Set.Finite.exists_lt_map_eq_of_forall_mem hmem hfin
  obtain ⟨e, he, hde⟩ := stepN_isDeck a freshDeck freshDeck_isDeck
  obtain ⟨e2, he2, -⟩ := stepN_isDeck b freshDeck freshDeck_isDeck
  rw [he, he2] at heq
  simp only [Option.getD_some] at heq
  subst heq
  refine ⟨e, b - a - 1, hde, ?_⟩
  have hb : b = a + (b - a - 1 + 1) := by omega
  rw [hb, stepN_add, he] at he2
  exact he2

/-! ## The claims, continued -/

/-- C11 (triple cut). On a deck that is a rearrangement of `1..54` with the two
jokers at the positions `lo < hi`, in either order, `tripleCut` returns the cards
`cards[hi+1..54)`, then `cards[lo..hi]`, then `cards[0..lo)`: the blocks above and
below the jokers change places, the jokers and the cards between them stay in
their order, and either outer block may be empty. -/
theorem triple_cut_shape (d : Deck) (lo hi : Nat) (hd : IsDeck d) (hlt : lo < hi)
    (hj : (d[lo]? = some jokerA ∧ d[hi]? = some jokerB) ∨
      (d[lo]? = some jokerB ∧ d[hi]? = some jokerA)) :
    tripleCut d = some (slice d (hi + 1) 54 ++ slice d lo (hi + 1) ++ slice d 0 lo) ∧
    (slice d (hi + 1) 54).length = 53 - hi ∧ (slice d lo (hi + 1)).length = hi + 1 - lo ∧
    (slice d 0 lo).length = lo ∧
    (∀ i, i < 53 - hi → (slice d (hi + 1) 54)[i]? = d[hi + 1 + i]?) ∧
    (∀ i, i < hi + 1 - lo → (slice d lo (hi + 1))[i]? = d[lo + i]?) ∧
    (∀ i, i < lo → (slice d 0 lo)[i]? = d[i]?) := by
  have hl := hd.length_eq
  have hhi : hi < 54 := by
    rcases hj with h | h
    · have := (List.getElem?_eq_some.mp h.2).1; omega
    · have := (List.getElem?_eq_some.mp h.2).1; omega
  have hcut : tripleCut d = some (slice d (hi + 1) 54 ++ slice d lo (hi + 1) ++ slice d 0 lo) := by
    have e54 : slice d (hi + 1) 54 = d.drop (hi + 1) := by
      have := slice_to_end d (hi + 1)
      rw [hl] at this
      exact this
    rcases hj with ⟨h1, h2⟩ | ⟨h1, h2⟩
    · have ha := find_of_nodup d jokerA lo hd.nodup h1
      have hb := find_of_nodup d jokerB hi hd.nodup h2
      rw [tripleCut_eq d lo hi hl ha hb, e54, slice_zero,
        show max lo hi = hi by omega, show min lo hi = lo by omega]
    · have ha := find_of_nodup d jokerA hi hd.nodup h2
      have hb := find_of_nodup d jokerB lo hd.nodup h1
      rw [tripleCut_eq d hi lo hl ha hb, e54, slice_zero,
        show max hi lo = hi by omega, show min hi lo = lo by omega]
  refine ⟨hcut, ?_, ?_, ?_, ?_, ?_, ?_⟩
  · rw [slice_length d _ _ (by omega)]; omega
  · rw [slice_length d _ _ (by omega)]
  · rw [slice_length d _ _ (by omega)]; omega
  · intro i hi2
    exact slice_getElem? d _ _ i (by omega)
  · intro i hi2
    exact slice_getElem? d _ _ i hi2
  · intro i hi2
    rw [slice_getElem? d 0 lo i (by omega), Nat.zero_add]

/-- C11, at a concrete input: the deck `fourthDeck`, with joker B at index 3 and
joker A at index 52. -/
theorem triple_cut_shape_witness :
    IsDeck fourthDeck ∧ 3 < 52 ∧ fourthDeck[3]? = some jokerB ∧
    fourthDeck[52]? = some jokerA ∧
    tripleCut fourthDeck =
      some (slice fourthDeck 53 54 ++ slice fourthDeck 3 53 ++ slice fourthDeck 0 3) :=
  ⟨by decide, by decide, by decide, by decide,
    (triple_cut_shape fourthDeck 3 52 (by decide) (by decide)
      (Or.inr ⟨by decide, by decide⟩)).1⟩

/-- C12 (count cut). On a deck of 54 cards and for a count of at most 53,
`countCut(count)` returns the cards `cards[count..53)`, then `cards[0..count)`,
then the single card `cards[53]`: index 53 keeps its card, and with the count 53,
the value of a joker, the deck is returned as it was. -/
theorem count_cut_shape (d : Deck) (count : Nat) (hl : d.length = 54) (hc : count ≤ 53) :
    countCut d count = some (slice d count 53 ++ slice d 0 count ++ slice d 53 54) ∧
    (∃ bottom, d[53]? = some bottom ∧ slice d 53 54 = [bottom]) ∧
    (slice d count 53).length = 53 - count ∧ (slice d 0 count).length = count ∧
    (∀ i, i < 53 - count → (slice d count 53)[i]? = d[count + i]?) ∧
    (∀ i, i < count → (slice d 0 count)[i]? = d[i]?) ∧
    (∃ d1, countCut d count = some d1 ∧ d1.length = 54 ∧ d1[53]? = d[53]?) ∧
    value jokerA = 53 ∧ value jokerB = 53 ∧ countCut d 53 = some d := by
  have e54 : slice d 53 54 = d.drop 53 := by
    have := slice_to_end d 53
    rw [hl] at this
    exact this
  have hcut : countCut d count =
      some (slice d count 53 ++ slice d 0 count ++ slice d 53 54) := by
    rw [countCut_eq d count hl hc, e54, slice_zero]
  have hlast : slice d 53 54 = [d[53]] := by
    rw [e54, List.drop_eq_getElem_cons (by omega)]
    have : d.drop (53 + 1) = [] := List.drop_of_length_le (by omega)
    rw [this]
  refine ⟨hcut, ⟨d[53], List.getElem?_eq_getElem (by omega), hlast⟩, ?_, ?_, ?_, ?_, ?_,
    by decide, by decide, countCut_53 d hl⟩
  · rw [slice_length d _ _ (by omega)]
  · rw [slice_length d _ _ (by omega)]; omega
  · intro i hi
    exact slice_getElem? d _ _ i hi
  · intro i hi
    rw [slice_getElem? d 0 count i (by omega), Nat.zero_add]
  · refine ⟨_, hcut, ?_, ?_⟩
    · simp only [List.length_append]
      rw [slice_length d _ _ (by omega), slice_length d _ _ (by omega),
        slice_length d _ _ (by omega)]
      omega
    · have hlen : (slice d count 53 ++ slice d 0 count).length = 53 := by
        rw [List.length_append, slice_length d _ _ (by omega), slice_length d _ _ (by omega)]
        omega
      rw [List.getElem?_append_right (by omega), hlen, hlast]
      simp

/-- C12, at a concrete input: the deck `thirdDeck` cut at the count 10. -/
theorem count_cut_shape_witness :
    thirdDeck.length = 54 ∧ 10 ≤ 53 ∧
    countCut thirdDeck 10 =
      some (slice thirdDeck 10 53 ++ slice thirdDeck 0 10 ++ slice thirdDeck 53 54) :=
  ⟨by decide, by decide, (count_cut_shape thirdDeck 10 (by decide) (by decide)).1⟩

/-- C18 (triple cut is an involution). On a deck that is a rearrangement of
`1..54`, `tripleCut` returns a deck on which `tripleCut` returns the first deck. -/
theorem triple_cut_involution (d : Deck) (hd : IsDeck d) :
    ∃ d1, tripleCut d = some d1 ∧ tripleCut d1 = some d := by
  have hl := hd.length_eq
  obtain ⟨a, ha, ha54, hda, -⟩ := find_unique d jokerA hd (by decide) (by decide)
  obtain ⟨b, hb, hb54, hdb, -⟩ := find_unique d jokerB hd (by decide) (by decide)
  have hab : a ≠ b := by
    intro h
    rw [h, hdb] at hda
    cases hda
  -- the three blocks of the deck
  have hX : (d.drop (max a b + 1)).length = 53 - max a b := by
    rw [List.length_drop]; omega
  have hY : (slice d (min a b) (max a b + 1)).length = max a b + 1 - min a b :=
    slice_length d _ _ (by omega)
  have hcut := tripleCut_eq d a b hl ha hb
  have hperm := tripleCut_shape_perm d (min a b) (max a b + 1) (by omega)
  have hd1 := hd.of_perm hperm
  refine ⟨_, hcut, ?_⟩
  -- where the jokers are after the cut
  have hlo : (d.drop (max a b + 1) ++ slice d (min a b) (max a b + 1)
      ++ d.take (min a b))[53 - max a b]? = d[min a b]? := by
    rw [List.append_assoc, List.getElem?_append_right (by omega), hX,
      List.getElem?_append_left (by rw [hY]; omega), Nat.sub_self,
      slice_getElem? d _ _ 0 (by omega)]
    rfl
  have hhi : (d.drop (max a b + 1) ++ slice d (min a b) (max a b + 1)
      ++ d.take (min a b))[53 - min a b]? = d[max a b]? := by
    rw [List.append_assoc, List.getElem?_append_right (by omega), hX,
      List.getElem?_append_left (by rw [hY]; omega),
      slice_getElem? d _ _ _ (by omega)]
    congr 1
    omega
  have hblocks := three_blocks (d.drop (max a b + 1)) (slice d (min a b) (max a b + 1))
    (d.take (min a b))
  rw [hX, hY] at hblocks
  obtain ⟨hb1, hb2, hb3⟩ := hblocks
  have hfinal : ∀ a1 b1, find (d.drop (max a b + 1) ++ slice d (min a b) (max a b + 1)
      ++ d.take (min a b)) jokerA = some a1 →
      find (d.drop (max a b + 1) ++ slice d (min a b) (max a b + 1)
      ++ d.take (min a b)) jokerB = some b1 →
      min a1 b1 = 53 - max a b → max a1 b1 = 53 - min a b →
      tripleCut (d.drop (max a b + 1) ++ slice d (min a b) (max a b + 1)
        ++ d.take (min a b)) = some d := by
    intro a1 b1 h1 h2 hmin hmax
    rw [tripleCut_eq _ a1 b1 hd1.length_eq h1 h2, hmin, hmax,
      show 53 - min a b + 1 = 53 - max a b + (max a b + 1 - min a b) by omega,
      hb1, hb2, hb3, split_at_slice d _ _ (by omega)]
  rcases Nat.lt_or_ge a b with hlt | hge
  · have e1 : d[min a b]? = some jokerA := by rw [show min a b = a by omega]; exact hda
    have e2 : d[max a b]? = some jokerB := by rw [show max a b = b by omega]; exact hdb
    exact hfinal (53 - max a b) (53 - min a b)
      (find_of_nodup _ _ _ hd1.nodup (hlo.trans e1))
      (find_of_nodup _ _ _ hd1.nodup (hhi.trans e2)) (by omega) (by omega)
  · have e1 : d[min a b]? = some jokerB := by rw [show min a b = b by omega]; exact hdb
    have e2 : d[max a b]? = some jokerA := by rw [show max a b = a by omega]; exact hda
    exact hfinal (53 - min a b) (53 - max a b)
      (find_of_nodup _ _ _ hd1.nodup (hhi.trans e2))
      (find_of_nodup _ _ _ hd1.nodup (hlo.trans e1)) (by omega) (by omega)

/-- C18, at a concrete input: the deck `fourthDeck`. -/
theorem triple_cut_involution_witness :
    IsDeck fourthDeck ∧ ∃ d1, tripleCut fourthDeck = some d1 ∧ tripleCut d1 = some fourthDeck :=
  ⟨by decide, triple_cut_involution fourthDeck (by decide)⟩

/-- C13 (move down with wrap). On a deck of 54 cards, for a position `pos` in
`0..53`: `moveDown(pos, 0)` leaves the deck as it is, and for `off ≥ 1`,
`moveDown(pos, off)` returns a deck of 54 cards in which the card that was at
`pos` is at the index `((pos + off - 1) mod 53) + 1`, never 0, and from which
deleting that card gives the same sequence as deleting it from the first deck.
So a card at the bottom moved by 1 ends at index 1, a card at the bottom moved
by 2 ends at index 2, and the card second from the bottom moved by 2 ends at
index 1. -/
theorem move_down_wrap (d : Deck) (pos off : Nat) (hl : d.length = 54) (hp : pos ≤ 53) :
    moveDown d pos 0 = some d ∧
    (1 ≤ off → ∃ d1, moveDown d pos off = some d1 ∧ d1.length = 54 ∧
      d1[(pos + off - 1) % 53 + 1]? = d[pos]? ∧
      d1.eraseIdx ((pos + off - 1) % 53 + 1) = d.eraseIdx pos ∧
      (pos + off - 1) % 53 + 1 ≠ 0 ∧ (pos + off - 1) % 53 + 1 ≤ 53) ∧
    (∃ d1, moveDown d 53 1 = some d1 ∧ d1[1]? = d[53]? ∧ d1.eraseIdx 1 = d.eraseIdx 53) ∧
    (∃ d1, moveDown d 53 2 = some d1 ∧ d1[2]? = d[53]? ∧ d1.eraseIdx 2 = d.eraseIdx 53) ∧
    (∃ d1, moveDown d 52 2 = some d1 ∧ d1[1]? = d[52]? ∧ d1.eraseIdx 1 = d.eraseIdx 52) := by
  refine ⟨by rw [moveDown], ?_, ?_, ?_, ?_⟩
  · intro h1
    obtain ⟨d1, k1, k2, k3, k4⟩ := moveDown_track (off - 1) d pos hl hp
    have e1 : off - 1 + 1 = off := by omega
    have e2 : pos + (off - 1) = pos + off - 1 := by omega
    rw [e1] at k1
    rw [e2] at k3 k4
    exact ⟨d1, k1, k2, k3, k4, by omega, by omega⟩
  · obtain ⟨d1, k1, -, k3, k4⟩ := moveDown_track 0 d 53 hl (by omega)
    exact ⟨d1, k1, k3, k4⟩
  · obtain ⟨d1, k1, -, k3, k4⟩ := moveDown_track 1 d 53 hl (by omega)
    exact ⟨d1, k1, k3, k4⟩
  · obtain ⟨d1, k1, -, k3, k4⟩ := moveDown_track 1 d 52 hl (by omega)
    exact ⟨d1, k1, k3, k4⟩

/-- C13, at a concrete input: joker B, at the bottom of the fresh deck, moved
down by 2 ends at index 2, behind the card 1 and the card 2. -/
theorem move_down_wrap_witness :
    freshDeck.length = 54 ∧ 53 ≤ 53 ∧
    ∃ d1, moveDown freshDeck 53 2 = some d1 ∧ d1[2]? = some jokerB ∧
      d1.eraseIdx 2 = freshDeck.eraseIdx 53 := by
  refine ⟨by decide, by decide, ?_⟩
  obtain ⟨d1, h1, h2, h3⟩ := (move_down_wrap freshDeck 53 2 (by decide) (by decide)).2.2.2.1
  exact ⟨d1, h1, by rw [h2]; decide, h3⟩

/-- C14 (no internal failure). On a deck that is a rearrangement of `1..54`, one
`step` and the read of `output` go through without a panic. Call by call:
`find(jokerA)` returns the one position of joker A and `moveDown` by 1 returns a
rearrangement; on it `find(jokerB)` returns the one position of joker B and
`moveDown` by 2 returns a rearrangement; on that deck both `find`s of `tripleCut`
return the one position of their joker and the bounds passed to `reorder` are
within `0..54`; `cards[53]` is a valid index, its value is at most 53 and the
bounds `countCut` passes to `reorder` are within `0..54`; on the deck `step`
returns, `cards[0]` and `cards[value(cards[0])]` are valid indices. `output`
never panics, whatever its recursion budget. -/
theorem no_internal_failure (d : Deck) (hd : IsDeck d) :
    (∃ a dA b d1 a1 b1 d2 bottom d3 top out,
      FindsAt d jokerA a ∧ moveDown d a 1 = some dA ∧ IsDeck dA ∧
      FindsAt dA jokerB b ∧ moveDown dA b 2 = some d1 ∧ IsDeck d1 ∧
      moveJokers d = some d1 ∧
      FindsAt d1 jokerA a1 ∧ FindsAt d1 jokerB b1 ∧
      InRange [max a1 b1 + 1, 54, min a1 b1, max a1 b1 + 1, 0, min a1 b1] ∧
      reorder d1 [max a1 b1 + 1, 54, min a1 b1, max a1 b1 + 1, 0, min a1 b1] = some d2 ∧
      tripleCut d1 = some d2 ∧ IsDeck d2 ∧
      d2[53]? = some bottom ∧ value bottom ≤ 53 ∧
      InRange [value bottom, 53, 0, value bottom, 53, 54] ∧
      reorder d2 [value bottom, 53, 0, value bottom, 53, 54] = some d3 ∧
      countCut d2 (value bottom) = some d3 ∧ IsDeck d3 ∧ step d = some d3 ∧
      d3[0]? = some top ∧ value top ≤ 53 ∧ d3[value top]? = some out ∧
      candidate d3 = some out) ∧
    InRange [0, 1, 53, 54, 1, 53] ∧
    (∀ fuel, output fuel d ≠ .panicked) := by
  refine ⟨?_, by intro p hp; simp at hp; omega, fun fuel => (output_isDeck fuel d hd).1⟩
  obtain ⟨a, hfa⟩ := findsAt_of_isDeck d jokerA hd (by decide) (by decide)
  obtain ⟨dA, hmA, hpA⟩ := moveDown_perm 1 d a hd.length_eq hfa.2.1
  have hdA := hd.of_perm hpA
  obtain ⟨b, hfb⟩ := findsAt_of_isDeck dA jokerB hdA (by decide) (by decide)
  obtain ⟨d1, hmB, hpB⟩ := moveDown_perm 2 dA b hdA.length_eq hfb.2.1
  have hd1 := hdA.of_perm hpB
  have hmj : moveJokers d = some d1 := by
    simp only [moveJokers, hfa.1, hmA, hfb.1, hmB]
  obtain ⟨a1, hfa1⟩ := findsAt_of_isDeck d1 jokerA hd1 (by decide) (by decide)
  obtain ⟨b1, hfb1⟩ := findsAt_of_isDeck d1 jokerB hd1 (by decide) (by decide)
  have ha1 := hfa1.2.1
  have hb1 := hfb1.2.1
  obtain ⟨d2, ht, hp2⟩ := tripleCut_perm d1 hd1.length_eq
    ((hd1.mem_iff _).mpr (by decide)) ((hd1.mem_iff _).mpr (by decide))
  have hd2 := hd1.of_perm hp2
  have hlt : 53 < d2.length := by rw [hd2.length_eq]; omega
  have hb : d2[53]? = some d2[53] := List.getElem?_eq_getElem hlt
  have hv : value d2[53] ≤ 53 := value_le _ ((hd2.mem_iff _).mp (List.getElem_mem _)).2
  obtain ⟨d3, hc, hp3⟩ := countCut_perm d2 _ hd2.length_eq hv
  have hd3 := hd2.of_perm hp3
  have hs : step d = some d3 := by simp [step, hmj, ht, hb, hc]
  have h0 : 0 < d3.length := by rw [hd3.length_eq]; omega
  have ht0 : d3[0]? = some d3[0] := List.getElem?_eq_getElem h0
  have hvt : value d3[0] ≤ 53 := value_le _ ((hd3.mem_iff _).mp (List.getElem_mem _)).2
  have hvl : value d3[0] < d3.length := by rw [hd3.length_eq]; omega
  have hout : d3[value d3[0]]? = some d3[value d3[0]] := List.getElem?_eq_getElem hvl
  refine ⟨a, dA, b, d1, a1, b1, d2, d2[53], d3, d3[0], d3[value d3[0]],
    hfa, hmA, hdA, hfb, hmB, hd1, hmj, hfa1, hfb1, ?_, ?_, ht, hd2, hb, hv, ?_, hc, hc, hd3, hs,
    ht0, hvt, hout, ?_⟩
  · intro p hp
    simp only [List.mem_cons, List.mem_singleton, List.not_mem_nil, or_false] at hp
    omega
  · rw [← tripleCut_reorder d1 a1 b1 hfa1.1 hfb1.1]
    exact ht
  · intro p hp
    simp only [List.mem_cons, List.mem_singleton, List.not_mem_nil, or_false] at hp
    omega
  · simp [candidate, ht0, hout]

set_option maxRecDepth 1000000 in
/-- C14, at a concrete input: the deck `thirdDeck`, whose `step` is `fourthDeck`. -/
theorem no_internal_failure_witness :
    IsDeck thirdDeck ∧ step thirdDeck = some fourthDeck ∧
    candidate fourthDeck = some jokerB ∧ ∀ fuel, output fuel thirdDeck ≠ .panicked :=
  ⟨by decide, by decide, by decide, (no_internal_failure thirdDeck (by decide)).2.2⟩

/-- C16 (keystream independence). On a deck that is a rearrangement of `1..54`,
let `m1` and `m2` be messages of letters `A..Z` of the same length, processed by
`addToKeystream` with any two values of the decrypt flag. Neither run panics, one
runs out of its recursion budget exactly when the other does, and when the first
returns, the second returns too: both leave the same deck, the one left by
`m1.length` calls of `output`, and both strings are built from the same values
`ks` of `output`, which depend on the first deck and the length only. -/
theorem keystream_independence (fuel : Nat) (d : Deck) (m1 m2 : GoString)
    (dec1 dec2 : Bool) (hd : IsDeck d) (h1 : Upper m1) (h2 : Upper m2)
    (hlen : m1.length = m2.length) :
    addToKeystream fuel d m1 dec1 ≠ .panicked ∧
    addToKeystream fuel d m2 dec2 ≠ .panicked ∧
    (addToKeystream fuel d m1 dec1 = .outOfFuel ↔
      addToKeystream fuel d m2 dec2 = .outOfFuel) ∧
    (∀ d1 s1 e1, addToKeystream fuel d m1 dec1 = .returned (d1, s1, e1) →
      ∃ ks s2, keystream fuel m1.length d = .returned (d1, ks) ∧
        addToKeystream fuel d m2 dec2 = .returned (d1, s2, none) ∧ e1 = none ∧
        s1 = spaced 0 (List.zipWith (keyedChar dec1) m1 ks) ∧
        s2 = spaced 0 (List.zipWith (keyedChar dec2) m2 ks) ∧
        stripSpaces s1 = List.zipWith (keyedChar dec1) m1 ks ∧
        stripSpaces s2 = List.zipWith (keyedChar dec2) m2 ks) := by
  refine ⟨(addToKeystream_isDeck fuel d m1 dec1 hd).1,
    (addToKeystream_isDeck fuel d m2 dec2 hd).1, ?_, ?_⟩
  · rw [addToKeystream_valid fuel d m1 dec1 h1, addToKeystream_valid fuel d m2 dec2 h2, hlen]
    cases keystream fuel m2.length d with
    | panicked => simp
    | outOfFuel => simp
    | returned r => simp
  · intro d1 s1 e1 h
    obtain ⟨ks, hks, hs, he⟩ := addToKeystream_valid_returned fuel d d1 m1 s1 dec1 e1 h1 h
    refine ⟨ks, spaced 0 (List.zipWith (keyedChar dec2) m2 ks), hks, ?_, he, hs, rfl, ?_, ?_⟩
    · rw [addToKeystream_valid fuel d m2 dec2 h2, ← hlen, hks]
    · rw [hs]
      exact stripSpaces_spaced 0 _ (zipWith_keyedChar_no_space dec1 m1 ks)
    · exact stripSpaces_spaced 0 _ (zipWith_keyedChar_no_space dec2 m2 ks)

set_option maxRecDepth 1000000 in
/-- C16, at a concrete input: on the fresh deck, encrypting `AB` and decrypting
`YZ` draw the same two values and leave the same deck. -/
theorem keystream_independence_witness :
    IsDeck freshDeck ∧ Upper "AB".toList ∧ Upper "YZ".toList ∧
    ∃ d1, addToKeystream 1 freshDeck "AB".toList false = .returned (d1, "EY".toList, none) ∧
      ∃ s2, addToKeystream 1 freshDeck "YZ".toList true = .returned (d1, s2, none) := by
  refine ⟨freshDeck_isDeck, by decide, by decide, ?_⟩
  obtain ⟨d1, h1⟩ := exists_returned (addToKeystream 1 freshDeck "AB".toList false)
    "EY".toList none (by decide)
  obtain ⟨ks, s2, -, h2, -⟩ := (keystream_independence 1 freshDeck "AB".toList "YZ".toList
    false true freshDeck_isDeck (by decide) (by decide) rfl).2.2.2 d1 _ _ h1
  exact ⟨d1, h1, s2, h2⟩
/-! ## Runs that return

Whether the recursion of `output` ends on every deck that is a rearrangement of
`1..54` is not settled in this development: no bound on the number of steps is
proved, and no deck on which it goes on for ever is known. The statements of this
section are about runs that return. Each of them assumes that a run of `Encrypt`,
of `Decrypt` or of the calls of `output` it names returns, and says what is then
returned; none of them says that a run returns. -/

/-- Round trip of a run that returns. Let the passphrase and the plaintext `p`
consist of letters `A..Z`, let `dA` and `dB` be decks built by `NewDeck` from the
passphrase, and assume that `dA.Encrypt(p)` returns the string `c` and the error
`e`. Then `e` is nil, and `dB.Decrypt` applied to `c` without its spaces returns,
with the same recursion budget, a nil error and a string that without its spaces
is `p` padded on the right with `'X'` to the next multiple of 5 (`p` itself when
its length is one). That `Encrypt` returns is assumed, not proved. -/
theorem round_trip_of_returned (fuel : Nat) (passphrase p : GoString) (dA dB dA1 : Deck)
    (c : GoString) (e : Option InvalidCharacterError)
    (hpass : Upper passphrase) (hp : Upper p)
    (hA : NewDeck passphrase = some (some dA, none))
    (hB : NewDeck passphrase = some (some dB, none))
    (henc : Encrypt fuel dA p = .returned (dA1, c, e)) :
    e = none ∧
    (∃ dB1 r, Decrypt fuel dB (stripSpaces c) = .returned (dB1, r, none) ∧
      stripSpaces r = padX p) ∧
    (p.length % 5 = 0 → padX p = p) := by
  have _ := hpass
  have hAB : dB = dA := by
    rw [hA] at hB
    simp only [Option.some.injEq, Prod.mk.injEq, and_true] at hB
    exact hB.symm
  subst hAB
  have hd : IsDeck dB := newDeck_isDeck passphrase dB none hA
  rw [Encrypt_upper fuel dB p hp] at henc
  obtain ⟨ks, hks, hc, he⟩ := addToKeystream_valid_returned fuel dB dA1 _ c false e
    (padX_upper p hp) henc
  obtain ⟨-, hlen, hall⟩ := (keystream_isDeck fuel _ dB hd).2 dA1 ks hks
  have hstrip : stripSpaces c = List.zipWith (keyedChar false) (padX p) ks := by
    rw [hc]
    exact stripSpaces_spaced 0 _ (zipWith_keyedChar_no_space false _ ks)
  have hup : Upper (List.zipWith (keyedChar false) (padX p) ks) :=
    zipWith_upper _ _ _
      (fun x hx k hk => keyedChar_upper false x k (padX_upper p hp x hx) (hall k hk).2)
  have hl2 : (List.zipWith (keyedChar false) (padX p) ks).length = (padX p).length := by
    rw [List.length_zipWith, hlen, Nat.min_self]
  refine ⟨he, ⟨dA1, spaced 0 (List.zipWith (keyedChar true)
    (List.zipWith (keyedChar false) (padX p) ks) ks), ?_, ?_⟩, ?_⟩
  · rw [hstrip, Decrypt, addToKeystream_valid fuel dB _ true hup, hl2, hks]
  · rw [stripSpaces_spaced 0 _ (zipWith_keyedChar_no_space true _ ks)]
    exact zipWith_round_trip (keyedChar true) (keyedChar false) (padX p) ks hlen.symm
      (fun x hx k hk => (keyedChar_round_trip x k (padX_upper p hp x hx) (hall k hk).2).1)
  · exact padX_of_length p

set_option maxRecDepth 1000000 in
/-- The round trip at a concrete input: the empty passphrase and the plaintext
`HI`, which `Encrypt` turns into `LFHVF` and `Decrypt` turns back into `HIXXX`. -/
theorem round_trip_of_returned_example :
    ∃ d1 d2 r, NewDeck [] = some (some freshDeck, none) ∧
      Encrypt 2 freshDeck "HI".toList = .returned (d1, "LFHVF".toList, none) ∧
      Decrypt 2 freshDeck "LFHVF".toList = .returned (d2, r, none) ∧
      stripSpaces r = "HIXXX".toList := by
  obtain ⟨d1, h1⟩ := exists_returned (Encrypt 2 freshDeck "HI".toList) "LFHVF".toList none
    (by decide)
  obtain ⟨-, ⟨d2, r, h3, h4⟩, -⟩ := round_trip_of_returned 2 [] "HI".toList freshDeck
    freshDeck d1 "LFHVF".toList none (by decide) (by decide) rfl rfl h1
  exact ⟨d1, d2, r, rfl, h1, h3, h4⟩

/-- Message validation of a run that returns. On a deck that is a rearrangement
of `1..54`, a run of `Encrypt` or of `Decrypt` on a message never panics; if it
returns, the error is non-nil exactly when the message has a character outside
`A..Z`, and then the error is `InvalidCharacterError` of the first such character
and the returned string is empty. If the calls of `output` for the letters before
that character return, the run returns that error (no call is needed when the
character comes first). That those calls return is assumed, not proved, and
nothing is said of a run on a message of letters only that does not return. -/
theorem validation_of_returned (fuel : Nat) (d : Deck) (m : GoString)
    (run : Outcome (Deck × GoString × Option InvalidCharacterError))
    (hd : IsDeck d) (hrun : run = Encrypt fuel d m ∨ run = Decrypt fuel d m) :
    run ≠ .panicked ∧
    (∀ d1 s e, run = .returned (d1, s, e) →
      ((e ≠ none) ↔ ∃ c ∈ m, c < 'A' ∨ c > 'Z') ∧
      (e ≠ none → s = [] ∧ ∃ c, firstInvalid m = some c ∧ e = some (invalidCharacter c))) ∧
    (∀ pre c post, m = pre ++ c :: post → Upper pre → (c < 'A' ∨ c > 'Z') →
      (∃ r, keystream fuel pre.length d = .returned r) →
      ∃ d1, run = .returned (d1, [], some (invalidCharacter c))) := by
  -- both runs are `addToKeystream` on the message followed by letters `X`
  have hform : ∃ (pad : GoString) (decrypt : Bool), Upper pad ∧
      run = addToKeystream fuel d (m ++ pad) decrypt := by
    rcases hrun with h | h
    · unfold Encrypt at h
      by_cases h5 : len m % 5 ≠ 0
      · exact ⟨_, false, upper_replicate_X _, by rw [h, if_pos h5]⟩
      · refine ⟨[], false, fun c hc => by simp at hc, ?_⟩
        rw [h, if_neg h5, List.append_nil]
    · exact ⟨[], true, fun c hc => by simp at hc, by rw [h, Decrypt, List.append_nil]⟩
  obtain ⟨pad, decrypt, hpad, hrun2⟩ := hform
  have hinv : (∃ c ∈ m, c < 'A' ∨ c > 'Z') ↔ ¬ Upper m := by
    unfold Upper
    constructor
    · rintro ⟨c, hc, hcc⟩ hu
      exact (not_upper_iff c).mp hcc (hu c hc)
    · intro hu
      by_contra hne
      apply hu
      intro c hc
      by_contra hcc
      exact hne ⟨c, hc, (not_upper_iff c).mpr hcc⟩
  refine ⟨?_, ?_, ?_⟩
  · rw [hrun2]
    exact (addToKeystream_isDeck fuel d _ decrypt hd).1
  · intro d1 s e hret
    rw [hrun2] at hret
    rcases upper_or_firstInvalid m with hm | ⟨c, hc⟩
    · obtain ⟨ks, -, -, he⟩ := addToKeystream_valid_returned fuel d d1 _ s decrypt e
        (upper_append hm hpad) hret
      subst he
      constructor
      · rw [hinv]
        constructor
        · intro h; exact absurd rfl h
        · intro h; exact absurd hm h
      · intro h; exact absurd rfl h
    · obtain ⟨hcn, pre, post, rfl, hpre⟩ := firstInvalid_some m c hc
      rw [List.append_assoc, List.cons_append] at hret
      obtain ⟨ks, -, rfl, rfl⟩ := addToKeystream_invalid_returned fuel d d1 pre c
        (post ++ pad) s decrypt e hpre hcn hret
      constructor
      · constructor
        · intro _
          exact ⟨c, by simp, (not_upper_iff c).mpr hcn⟩
        · intro _; simp
      · intro _
        exact ⟨rfl, c, hc, rfl⟩
  · intro pre c post hm hpre hc ⟨r, hr⟩
    subst hm
    rw [hrun2, List.append_assoc, List.cons_append,
      addToKeystream_invalid fuel d pre c (post ++ pad) decrypt hpre ((not_upper_iff c).mp hc),
      hr]
    exact ⟨r.1, rfl⟩

set_option maxRecDepth 1000000 in
/-- Message validation at a concrete input: `Decrypt` of `A?` on the deck of the
empty passphrase returns the empty string and the error of the character `?`. -/
theorem validation_of_returned_example :
    IsDeck freshDeck ∧ ∃ d1, Decrypt 1 freshDeck "A?".toList =
      .returned (d1, [], some (invalidCharacter '?')) :=
  ⟨freshDeck_isDeck,
    (validation_of_returned 1 freshDeck "A?".toList (Decrypt 1 freshDeck "A?".toList)
      freshDeck_isDeck (Or.inr rfl)).2.2 "A".toList '?' [] rfl (by decide) (by decide)
      (by
        obtain ⟨hnp, -⟩ := keystream_isDeck 1 1 freshDeck freshDeck_isDeck
        have : ∃ r, keystream 1 1 freshDeck = .returned r := by
          have h : (match keystream 1 1 freshDeck with
            | .returned _ => true | _ => false) = true := by decide
          cases hk : keystream 1 1 freshDeck with
          | returned r => exact ⟨r, rfl⟩
          | panicked => rw [hk] at h; cases h
          | outOfFuel => rw [hk] at h; cases h
        exact this)⟩

/-- What `Decrypt` does with a string that `Encrypt` returned. For a passphrase
over `A..Z`, a deck `d` built from it by `NewDeck` and a plaintext of more than 5
letters `A..Z`, assume that `Encrypt` on `d` returns the string `ct`. Then `ct` has
a space at index 5, and `Decrypt` of `ct` unchanged on `d`, a fresh deck of the
passphrase, returns, with the same recursion budget, the empty string and
`InvalidCharacterError` of the space, leaving the deck after 5 calls of `output`.
That `Encrypt` returns is assumed, not proved. -/
theorem rejects_spaces_of_returned (fuel : Nat) (passphrase p : GoString) (d d1 : Deck)
    (ct : GoString) (e : Option InvalidCharacterError)
    (hpass : Upper passphrase) (hp : Upper p) (hlen : 5 < p.length)
    (hN : NewDeck passphrase = some (some d, none))
    (henc : Encrypt fuel d p = .returned (d1, ct, e)) :
    e = none ∧ ct[5]? = some ' ' ∧
    ∃ d2, Decrypt fuel d ct = .returned (d2, [], some (invalidCharacter ' ')) ∧
      ∃ ks, keystream fuel 5 d = .returned (d2, ks) := by
  have _ := hpass
  have hd : IsDeck d := newDeck_isDeck passphrase d none hN
  rw [Encrypt_upper fuel d p hp] at henc
  obtain ⟨ks, hks, hc, he⟩ := addToKeystream_valid_returned fuel d d1 _ ct false e
    (padX_upper p hp) henc
  obtain ⟨-, hkl, hall⟩ := (keystream_isDeck fuel _ d hd).2 d1 ks hks
  have hpl := (padX_length p).2.1
  have hup : Upper (List.zipWith (keyedChar false) (padX p) ks) :=
    zipWith_upper _ _ _
      (fun x hx k hk => keyedChar_upper false x k (padX_upper p hp x hx) (hall k hk).2)
  have hl6 : 6 ≤ (List.zipWith (keyedChar false) (padX p) ks).length := by
    rw [List.length_zipWith, hkl, Nat.min_self]; omega
  obtain ⟨x0, x1, x2, x3, x4, x5, rest, hx⟩ := six_of_length _ hl6
  rw [hx] at hup
  rw [hx, spaced_six] at hc
  have hpre : Upper [x0, x1, x2, x3, x4] := by
    intro y hy
    apply hup y
    simp only [List.mem_cons, List.mem_singleton, List.not_mem_nil, or_false] at hy ⊢
    tauto
  have hsplit : (padX p).length = 5 + ((padX p).length - 5) := by omega
  rw [hsplit] at hks
  obtain ⟨d2, hk5, -⟩ := keystream_prefix fuel 5 _ d d1 ks hks
  refine ⟨he, by rw [hc]; rfl, d2, ?_, _, hk5⟩
  rw [hc, Decrypt, addToKeystream_invalid fuel d _ ' ' _ true hpre (by decide)]
  have : ([x0, x1, x2, x3, x4] : List Char).length = 5 := rfl
  rw [this, hk5]

set_option maxRecDepth 1000000 in
/-- The refusal at a concrete input: the empty passphrase and the plaintext
`AAAAAAAAAA`, whose ciphertext `EXKYI ZSGEH` is refused by `Decrypt`. -/
theorem rejects_spaces_of_returned_example :
    ∃ d1 d2, NewDeck [] = some (some freshDeck, none) ∧
      Encrypt 2 freshDeck "AAAAAAAAAA".toList = .returned (d1, "EXKYI ZSGEH".toList, none) ∧
      Decrypt 2 freshDeck "EXKYI ZSGEH".toList =
        .returned (d2, [], some (invalidCharacter ' ')) := by
  obtain ⟨d1, h1⟩ := exists_returned (Encrypt 2 freshDeck "AAAAAAAAAA".toList)
    "EXKYI ZSGEH".toList none (by decide)
  obtain ⟨-, -, d2, h2, -⟩ := rejects_spaces_of_returned 2 [] "AAAAAAAAAA".toList freshDeck d1
    "EXKYI ZSGEH".toList none (by decide) (by decide) (by decide) rfl h1
  exact ⟨d1, d2, rfl, h1, h2⟩

/-- Reverse round trip of a run that returns. Let the passphrase and the
ciphertext `c` consist of letters `A..Z`, let the length of `c` be a multiple of 5,
let `dA` and `dB` be decks built by `NewDeck` from the passphrase, and assume that
`dA.Decrypt(c)` returns the string `r` and the error `e`. Then `e` is nil, and
`dB.Encrypt` applied to `r` without its spaces returns, with the same recursion
budget, a nil error and a string that without its spaces is `c`. That `Decrypt`
returns is assumed, not proved. -/
theorem reverse_round_trip_of_returned (fuel : Nat) (passphrase c : GoString) (dA dB dA1 : Deck)
    (r : GoString) (e : Option InvalidCharacterError)
    (hpass : Upper passphrase) (hc : Upper c) (h5 : c.length % 5 = 0)
    (hA : NewDeck passphrase = some (some dA, none))
    (hB : NewDeck passphrase = some (some dB, none))
    (hdec : Decrypt fuel dA c = .returned (dA1, r, e)) :
    e = none ∧
    ∃ dB1 s, Encrypt fuel dB (stripSpaces r) = .returned (dB1, s, none) ∧
      stripSpaces s = c := by
  have _ := hpass
  have hAB : dB = dA := by
    rw [hA] at hB
    simp only [Option.some.injEq, Prod.mk.injEq, and_true] at hB
    exact hB.symm
  subst hAB
  have hd : IsDeck dB := newDeck_isDeck passphrase dB none hA
  unfold Decrypt at hdec
  obtain ⟨ks, hks, hr, he⟩ := addToKeystream_valid_returned fuel dB dA1 c r true e hc hdec
  obtain ⟨-, hlen, hall⟩ := (keystream_isDeck fuel _ dB hd).2 dA1 ks hks
  have hstrip : stripSpaces r = List.zipWith (keyedChar true) c ks := by
    rw [hr]
    exact stripSpaces_spaced 0 _ (zipWith_keyedChar_no_space true _ ks)
  have hup : Upper (List.zipWith (keyedChar true) c ks) :=
    zipWith_upper _ _ _ (fun x hx k hk => keyedChar_upper true x k (hc x hx) (hall k hk).2)
  have hl2 : (List.zipWith (keyedChar true) c ks).length = c.length := by
    rw [List.length_zipWith, hlen, Nat.min_self]
  have hpad : padX (List.zipWith (keyedChar true) c ks) = List.zipWith (keyedChar true) c ks :=
    padX_of_length _ (by rw [hl2]; exact h5)
  refine ⟨he, dA1, spaced 0 (List.zipWith (keyedChar false)
    (List.zipWith (keyedChar true) c ks) ks), ?_, ?_⟩
  · rw [hstrip, Encrypt_upper fuel dB _ hup, hpad, addToKeystream_valid fuel dB _ false hup,
      hl2, hks]
  · rw [stripSpaces_spaced 0 _ (zipWith_keyedChar_no_space false _ ks)]
    exact zipWith_round_trip (keyedChar false) (keyedChar true) c ks hlen.symm
      (fun x hx k hk => (keyedChar_round_trip x k (hc x hx) (hall k hk).2).2)

set_option maxRecDepth 1000000 in
/-- The reverse round trip at a concrete input: the empty passphrase and the
ciphertext `LFHVF`, which `Decrypt` turns into `HIXXX` and `Encrypt` turns back
into `LFHVF`. -/
theorem reverse_round_trip_of_returned_example :
    ∃ d1 d2 s, NewDeck [] = some (some freshDeck, none) ∧
      Decrypt 2 freshDeck "LFHVF".toList = .returned (d1, "HIXXX".toList, none) ∧
      Encrypt 2 freshDeck "HIXXX".toList = .returned (d2, s, none) ∧
      stripSpaces s = "LFHVF".toList := by
  obtain ⟨d1, h1⟩ := exists_returned (Decrypt 2 freshDeck "LFHVF".toList) "HIXXX".toList none
    (by decide)
  obtain ⟨-, d2, s, h3, h4⟩ := reverse_round_trip_of_returned 2 [] "LFHVF".toList freshDeck
    freshDeck d1 "HIXXX".toList none (by decide) (by decide) (by decide) rfl rfl h1
  exact ⟨d1, d2, s, rfl, h1, h3, h4⟩

/-- Failure of `addToKeystream` on a run that returns. On a deck that is a
rearrangement of `1..54`, take a message whose first character `c` outside `A..Z`
comes after the letters `pre`. `addToKeystream` does not panic; if the
`pre.length` calls of `output` return, it returns the empty string and
`InvalidCharacterError` of `c` and leaves the deck those calls leave; if it
returns, that is what it returns, and the deck it leaves is the first deck after
at least `pre.length` steps. When no letter comes before `c`, it returns with any
recursion budget and leaves the deck as it was. That the calls of `output` return
when letters come before `c` is assumed, not proved, and nothing is said here of
whether the deck that is left differs from the first one. -/
theorem failure_of_returned (fuel : Nat) (d : Deck) (pre : GoString) (c : Char)
    (post : GoString) (decrypt : Bool)
    (hd : IsDeck d) (hpre : Upper pre) (hc : c < 'A' ∨ c > 'Z') :
    firstInvalid (pre ++ c :: post) = some c ∧
    addToKeystream fuel d (pre ++ c :: post) decrypt ≠ .panicked ∧
    (∀ dj ks, keystream fuel pre.length d = .returned (dj, ks) →
      addToKeystream fuel d (pre ++ c :: post) decrypt =
        .returned (dj, [], some (invalidCharacter c))) ∧
    (∀ dj s e, addToKeystream fuel d (pre ++ c :: post) decrypt = .returned (dj, s, e) →
      s = [] ∧ e = some (invalidCharacter c) ∧ IsDeck dj ∧
      ∃ ks, keystream fuel pre.length d = .returned (dj, ks) ∧ ks.length = pre.length ∧
        ∃ n, pre.length ≤ n ∧ stepN n d = some dj) ∧
    (pre = [] →
      addToKeystream fuel d (pre ++ c :: post) decrypt =
        .returned (d, [], some (invalidCharacter c))) := by
  have hcn : ¬ ('A' ≤ c ∧ c ≤ 'Z') := (not_upper_iff c).mp hc
  have heq := addToKeystream_invalid fuel d pre c post decrypt hpre hcn
  refine ⟨firstInvalid_append_upper pre c post hpre hcn,
    (addToKeystream_isDeck fuel d _ decrypt hd).1, ?_, ?_, ?_⟩
  · intro dj ks hk
    rw [heq, hk]
  · intro dj s e h
    obtain ⟨ks, hk, hs, he⟩ := addToKeystream_invalid_returned fuel d dj pre c post s decrypt e
      hpre hcn h
    exact ⟨hs, he, (addToKeystream_isDeck fuel d _ decrypt hd).2 dj s e h, ks, hk,
      keystream_length fuel _ d dj ks hk, keystream_steps fuel _ d dj ks hk⟩
  · intro hnil
    subst hnil
    rw [heq]
    rfl

set_option maxRecDepth 1000000 in
/-- The failure at a concrete input: `AB?` on the fresh deck returns the empty
string and the error of `?`, and leaves `d1`, the deck after two calls of
`output`, which is not the fresh deck. -/
theorem failure_of_returned_example :
    IsDeck freshDeck ∧ Upper "AB".toList ∧ ('?' < 'A' ∨ '?' > 'Z') ∧
    ∃ d1, keystream 1 2 freshDeck = .returned (d1, [4, 49]) ∧
      addToKeystream 1 freshDeck "AB?".toList true =
        .returned (d1, [], some (invalidCharacter '?')) ∧ d1 ≠ freshDeck := by
  refine ⟨freshDeck_isDeck, by decide, by decide, ?_⟩
  have h : (match keystream 1 2 freshDeck with
      | .returned (d1, ks) => decide (ks = [4, 49] ∧ d1 ≠ freshDeck) | _ => false) = true := by
    decide
  cases hk : keystream 1 2 freshDeck with
  | panicked => rw [hk] at h; cases h
  | outOfFuel => rw [hk] at h; cases h
  | returned r =>
    obtain ⟨d1, ks⟩ := r
    rw [hk] at h
    simp only [decide_eq_true_eq] at h
    obtain ⟨rfl, hne⟩ := h
    exact ⟨d1, rfl,
      (failure_of_returned 1 freshDeck "AB".toList '?' [] true freshDeck_isDeck (by decide)
        (by decide)).2.2.1 d1 _ hk, hne⟩

/-- Either `output` does not return on some deck, or some deck comes back. The
decks that are rearrangements of `1..54` are finitely many, so some deck `d0`
comes back after a positive number of steps. Either no recursion budget makes
`output` return on `d0`, or it returns at a deck `d` that comes back too, and then
some `j ≥ 1` calls of `output` from `d` leave `d` again, so that `addToKeystream`
on `j` letters `A` followed by `?` returns the error and leaves the deck as it
was. The proof names no deck and does not tell which of the two is the case. -/
theorem divergence_or_recurrence :
    ∃ d : Deck, IsDeck d ∧
      ((∀ fuel d1 k, output fuel d ≠ .returned (d1, k)) ∨
       (∃ j fuel ks, 1 ≤ j ∧ keystream fuel j d = .returned (d, ks) ∧
          addToKeystream fuel d (List.replicate j 'A' ++ ['?']) false =
            .returned (d, [], some (invalidCharacter '?')))) := by
  obtain ⟨d, p, hd, hper⟩ := exists_periodic_deck
  by_cases h : ∃ fuel e1 k, output fuel d = .returned (e1, k)
  · obtain ⟨fuel, e1, k, ho⟩ := h
    obtain ⟨n, -, hn, ⟨c, hc, hcj, -⟩, -⟩ := (output_returned_iff fuel d e1 k).mp ho
    have he1 : IsDeck e1 := ((output_isDeck fuel d hd).2 e1 k ho).1
    -- the deck it leaves comes back after the same number of steps
    have hper1 : stepN (p + 1) e1 = some e1 := by
      have h1 : stepN ((n + 1) + (p + 1)) d = stepN (p + 1) e1 := by
        rw [stepN_add, hn]
      have h2 : stepN ((p + 1) + (n + 1)) d = some e1 := by
        rw [stepN_add, hper]
        exact hn
      rw [← h1, show n + 1 + (p + 1) = p + 1 + (n + 1) by omega, h2]
    -- so some `j ≥ 1` calls of `output` from it leave it again
    obtain ⟨j, fuel1, ks2, hj, hk2⟩ := keystream_reaches p e1 e1 c he1 hper1 hc hcj
    have hup : Upper (List.replicate j 'A') := by
      intro x hx
      have := List.eq_of_mem_replicate hx
      subst this
      decide
    refine ⟨e1, he1, Or.inr ⟨j, fuel1, ks2, by omega, hk2, ?_⟩⟩
    rw [addToKeystream_invalid fuel1 e1 (List.replicate j 'A') '?' [] false hup (by decide),
      List.length_replicate, hk2]
  · exact ⟨d, hd, Or.inl (fun fuel d1 k ho => h ⟨fuel, d1, k, ho⟩)⟩


end Solitaire
